import Mathlib

/-!
Verification of the pagination engine of Scribe-AI
(second, block/table-aware implementation of `paginateText` in
src/utils/textUtils.ts, lines 130-323).

Modelling choices (shallow embedding):
* Strings are modelled as `List Char`; JavaScript's `split`, `trim`,
  `startsWith`, `join` become executable list functions below.
* JavaScript numbers are modelled as `ℚ`.  The only division,
  `USABLE_WIDTH / avgCharWidth`, yields JS `Infinity` when the font size is
  zero; `charsPerLine` therefore returns `Option ℤ` with `none` standing for
  that infinite capacity (every length comparison against it is true, as in
  JS).
* The page accumulator of the source pushes joined strings.  Here a page is
  kept as its list of lines, each line carrying a ghost provenance tag
  (`Src.orig` for input-derived lines, `Src.header` for re-emitted table
  headers, `Src.spacer` for inserted blank spacer lines) together with the
  ghost value of `currentHeightUsed` at sealing time.  `paginateText` erases
  the ghost data and joins with newlines, matching the source's `string[]`
  output observationally (`[].join('\n') = ''`, so the source's special
  empty-page push is the same as pushing the join).
-/

set_option allowUnsafeReducibility true

set_option maxRecDepth 10000

attribute [semireducible] Rat.mul Rat.add Rat.sub Rat.inv Rat.ofScientific Rat.floor

namespace Scribe

/-- A line of text, as a list of characters. -/
abbrev Line := List Char

/-- JavaScript `s.split(c)` for a single-character separator: always returns
at least one piece, empty pieces included (`''.split(c) = ['']`). -/
def splitOnChar (c : Char) : List Char → List (List Char)
  | [] => [[]]
  | a :: as =>
      if a = c then [] :: splitOnChar c as
      else (a :: (splitOnChar c as).headD []) :: (splitOnChar c as).tail

/-- JavaScript `String.prototype.trim`: drop whitespace from both ends. -/
def trim (l : List Char) : List Char :=
  ((l.dropWhile Char.isWhitespace).reverse.dropWhile Char.isWhitespace).reverse

/-- `line.trim().startsWith('|')` — the table-row probe of the source. -/
def isTableLine (l : Line) : Bool :=
  match trim l with
  | c :: _ => c = '|'
  | [] => false

/-- The horizontal-rule probe: `/^---$/`, `/^___$/` or `/^\*\*\*$/` on the
trimmed line — exactly three characters, as in the source. -/
def isHrLine (l : Line) : Bool :=
  trim l = ['-', '-', '-'] || trim l = ['_', '_', '_'] || trim l = ['*', '*', '*']

/-- The heading probe `/^#{1,6}\s/.test(line)` on the raw line: one to six
leading number signs followed by a whitespace character. -/
def isHeadingLine (l : Line) : Bool :=
  let hashes := l.takeWhile (· = '#')
  1 ≤ hashes.length && hashes.length ≤ 6 &&
    (match l.drop hashes.length with
     | c :: _ => c.isWhitespace
     | [] => false)

/-- `charsPerLine = Math.floor(USABLE_WIDTH / avgCharWidth)` with
`USABLE_WIDTH = 794 - 92` and `avgCharWidth = fontSize * 0.45`.  A zero
font size makes the JS quotient `Infinity`, modelled as `none`. -/
def charsPerLine (fontSize : ℚ) : Option ℤ :=
  let avgCharWidth := fontSize * (45 / 100)
  if avgCharWidth = 0 then none else some ⌊(794 - 92 : ℚ) / avgCharWidth⌋

/-- Length comparison against the character capacity (`none` = JS Infinity,
against which every finite length compares `≤`). -/
def leCap (n : ℕ) : Option ℤ → Bool
  | none => true
  | some m => (n : ℤ) ≤ m

/-- The accumulation loop of `wrapText`: greedily extend `current` with the
next word while `current.length + 1 + word.length <= max`, else flush. -/
def wrapLoop (maxChars : Option ℤ) : Line → List Line → List Line
  | current, [] => [current]
  | current, w :: ws =>
      if leCap (current.length + 1 + w.length) maxChars then
        wrapLoop maxChars (current ++ ' ' :: w) ws
      else
        current :: wrapLoop maxChars w ws

/-- `wrapText(str, max)` of the source: short lines are returned unchanged;
otherwise split on single spaces and re-accumulate greedily
(`words[0] || ''` is the `headD []` below). -/
def wrapText (str : Line) (maxChars : Option ℤ) : List Line :=
  if leCap str.length maxChars then [str]
  else
    let words := splitOnChar ' ' str
    wrapLoop maxChars (words.headD []) words.tail

/-- Block kinds of the segmentation pass. -/
inductive BKind
  | text
  | table
  | hr
deriving DecidableEq

/-- A logical block: a table run, a one-line horizontal rule, or a one-line
text (paragraph/heading) block. -/
structure Block where
  kind : BKind
  content : List Line
deriving DecidableEq

/-- Block segmentation (the first `while` loop of `paginateText`): a line
whose trimmed form starts with `|` opens a table block absorbing all
consecutive such lines; exactly `---`/`___`/`***` (trimmed) is a
horizontal rule; anything else is a one-line text block.  Maximal table
runs are built here by merging a table line into an immediately following
table block, which yields the same maximal grouping as the source's inner
`while`; see `toBlocks_table` below for the `takeWhile`/`dropWhile`
characterisation. -/
def toBlocks : List Line → List Block
  | [] => []
  | l :: ls =>
      let rest := toBlocks ls
      if isTableLine l then
        match rest with
        | ⟨BKind.table, c⟩ :: bs => ⟨BKind.table, l :: c⟩ :: bs
        | _ => ⟨BKind.table, [l]⟩ :: rest
      else if isHrLine l then ⟨BKind.hr, [l]⟩ :: rest
      else ⟨BKind.text, [l]⟩ :: rest

/-- Provenance tag of an emitted page line (ghost data, erased in
`paginateText`). -/
inductive Src
  | orig
  | header
  | spacer
deriving DecidableEq

/-- The mutable state of the page-assembly loop: sealed pages (each with the
value of `currentHeightUsed` at sealing time), the current page's lines and
the current accumulated height. -/
structure PState where
  pages : List (List (Src × Line) × ℚ)
  cur : List (Src × Line)
  used : ℚ
deriving DecidableEq

/-- `AVAILABLE_HEIGHT = PAGE_HEIGHT - VERTICAL_PADDING = 1123 - 96`. -/
def AVAILABLE_HEIGHT : ℚ := 1123 - 96

/-- The source's `pushPage`: seal the current page (the source pushes
`currentPageLines.join('\n')`, or `''` for an empty page — the same string
as the join) and reset the accumulator. -/
def pushPage (s : PState) : PState :=
  ⟨s.pages ++ [(s.cur, s.used)], [], 0⟩

/-- The seal-if-overflow-then-append pattern repeated in the source's
horizontal-rule, heading and plain-text branches:
`if (used + h > AVAILABLE_HEIGHT) pushPage(); push(line); used += h`. -/
def placeUnit (avail : ℚ) (h : ℚ) (t : Src × Line) (s : PState) : PState :=
  let s1 := if avail < s.used + h then pushPage s else s
  ⟨s1.pages, s1.cur ++ [t], s1.used + h⟩

/-- `getLineHeight(isHeader, isTable, isHr)` of the source. -/
def getLineHeight (pxPerLine : ℚ) (isHeader isTable isHr : Bool) : ℚ :=
  if isTable then pxPerLine * 1
  else if isHr then pxPerLine * (1 / 2)
  else if isHeader then pxPerLine * (3 / 2)
  else pxPerLine

/-- The row-at-a-time loop of the table-split branch.  `r` is the row index
within the block; on sealing a page before a row of index `≥ 2` (not one of
the two header rows) the captured header lines are re-emitted first. -/
def tableRowsLoop (px avail : ℚ) (headers : List Line) :
    List Line → ℕ → PState → PState
  | [], _, s => s
  | row :: rest, r, s =>
      let s1 :=
        if avail < s.used + px then
          let sp := pushPage s
          if 2 ≤ r ∧ headers.length = 2 then
            ⟨sp.pages, headers.map (fun h => (Src.header, h)), 2 * px⟩
          else sp
        else s
      tableRowsLoop px avail headers rest (r + 1)
        ⟨s1.pages, s1.cur ++ [(Src.orig, row)], s1.used + px⟩

/-- The table branch of the source: if the whole table fits, append it (with
a blank spacer line first when the page already has content); otherwise add
the spacer when appropriate and fall into the row-at-a-time split loop. -/
def procTable (px avail : ℚ) (content : List Line) (s : PState) : PState :=
  let tableHeight := (content.length : ℚ) * px
  if s.used + tableHeight ≤ avail then
    let s1 :=
      if 0 < s.cur.length then
        ⟨s.pages, s.cur ++ [(Src.spacer, [])], s.used + px⟩
      else s
    ⟨s1.pages, s1.cur ++ content.map (fun l => (Src.orig, l)), s1.used + tableHeight⟩
  else
    let s1 :=
      if 0 < s.cur.length ∧ 0 < s.used then
        ⟨s.pages, s.cur ++ [(Src.spacer, [])], s.used + px⟩
      else s
    tableRowsLoop px avail (content.take 2) content 0 s1

/-- The horizontal-rule branch: one unit of height `px * 0.5`, carrying
`block.content[0]`. -/
def procHr (px avail : ℚ) (content : List Line) (s : PState) : PState :=
  placeUnit avail (getLineHeight px false false true) (Src.orig, content.headD []) s

/-- The text branch: a heading is one unit of height `px * 1.5`; any other
line is wrapped and each visual line placed as one unit of height `px`. -/
def procText (px avail : ℚ) (maxChars : Option ℤ) (line : Line) (s : PState) : PState :=
  if isHeadingLine line then
    placeUnit avail (getLineHeight px true false false) (Src.orig, line) s
  else
    (wrapText line maxChars).foldl
      (fun t v => placeUnit avail (getLineHeight px false false false) (Src.orig, v) t) s

/-- Dispatch on the block kind (the `for (const block of blocks)` body). -/
def procBlock (px avail : ℚ) (maxChars : Option ℤ) (s : PState) (b : Block) : PState :=
  match b.kind with
  | BKind.table => procTable px avail b.content s
  | BKind.hr => procHr px avail b.content s
  | BKind.text => procText px avail maxChars (b.content.headD []) s

/-- Process the whole block sequence. -/
def processBlocks (px avail : ℚ) (maxChars : Option ℤ)
    (blocks : List Block) (s : PState) : PState :=
  blocks.foldl (procBlock px avail maxChars) s

/-- The final seal after the block loop: `if (currentPageLines.length > 0)
pages.push(currentPageLines.join('\n'))`. -/
def sealFinal (s : PState) : List (List (Src × Line) × ℚ) :=
  if 0 < s.cur.length then s.pages ++ [(s.cur, s.used)] else s.pages

/-- The instrumented paginator: segmentation, block processing from the empty
state, and the final seal of a non-empty current page.  Returns the sealed
pages with ghost tags and heights. -/
def paginatePagesH (text : List Char) (fontSize lineHeight : ℚ) :
    List (List (Src × Line) × ℚ) :=
  let px := fontSize * lineHeight
  let maxChars := charsPerLine fontSize
  let lines := splitOnChar '\n' text
  sealFinal (processBlocks px AVAILABLE_HEIGHT maxChars (toBlocks lines) ⟨[], [], 0⟩)

/-- JavaScript `array.join(sep)` for a one-character separator. -/
def joinWith (c : Char) : List (List Char) → List Char
  | [] => []
  | [l] => l
  | l :: l2 :: ls => l ++ c :: joinWith c (l2 :: ls)

/-- Join a page's lines with newlines (`join('\n')`). -/
def joinLines (ls : List Line) : List Char :=
  joinWith '\n' ls

/-- Erase the ghost data of a sealed page, producing its output string. -/
def pageText (pg : List (Src × Line) × ℚ) : List Char :=
  joinLines (pg.1.map (fun tl => tl.2))

/-- `paginateText(text, fontSize, lineHeight)` of the source (lines 130-323
of src/utils/textUtils.ts): `['']` for the empty text, otherwise the sealed
pages joined with newlines, with `['']` as the fallback for an empty page
list. -/
def paginateText (text : List Char) (fontSize lineHeight : ℚ) : List (List Char) :=
  if text = [] then [[]]
  else
    let pages := paginatePagesH text fontSize lineHeight
    if pages = [] then [[]] else pages.map pageText

/-! ### Specification-side definitions

The following definitions are not translations of the source; they name the
concepts the claims quantify over (the spec's own horizontal-rule pattern,
plain-ness of a line, the ghost-tag projections, the invariants). -/

/-- The spec's horizontal-rule pattern: the trimmed line is three or more
repetitions of a single one of `-`, `_`, `*` and nothing else.  (Spec §4.1
rule 2; compare with the source's `isHrLine`, which accepts exactly three.) -/
def specIsHrLine (l : Line) : Bool :=
  3 ≤ (trim l).length &&
    ((trim l).all (· = '-') || (trim l).all (· = '_') || (trim l).all (· = '*'))

/-- A plain text line: not a table row, not a horizontal rule, not a
heading.  Such a line is wrapped and costs `pxPerLine` per visual line. -/
def plainLine (l : Line) : Bool :=
  !isTableLine l && !isHrLine l && !isHeadingLine l

/-- The input-derived (`Src.orig`) lines of a tagged page, in order. -/
def origOfPage (pls : List (Src × Line)) : List Line :=
  pls.filterMap (fun tl => if tl.1 = Src.orig then some tl.2 else none)

/-- All input-derived lines of a sealed page sequence, in order: the output
lines after excluding re-emitted table headers and inserted spacers. -/
def origLines (pgs : List (List (Src × Line) × ℚ)) : List Line :=
  (pgs.map (fun pg => origOfPage pg.1)).flatten

/-- The input-derived lines already committed to a processing state. -/
def stateOrig (s : PState) : List Line :=
  (s.pages.map (fun pg => origOfPage pg.1)).flatten ++ origOfPage s.cur

/-- The lines of a sealed page, tags erased. -/
def pageLines (pg : List (Src × Line) × ℚ) : List Line :=
  pg.1.map (fun tl => tl.2)

/-- The lines a block contributes to `Src.orig` output: table rows and the
horizontal-rule/heading line verbatim, a plain text line as its wrapped
visual lines. -/
def blockEmits (maxChars : Option ℤ) (b : Block) : List Line :=
  match b.kind with
  | BKind.table => b.content
  | BKind.hr => [b.content.headD []]
  | BKind.text =>
      if isHeadingLine (b.content.headD []) then [b.content.headD []]
      else wrapText (b.content.headD []) maxChars

/-- The amended budget invariant for one sealed page: the accumulated height
stays within the budget plus one line of spacer slack, or the page is one of
the short forced shapes (at most three lines: an oversized atomic unit,
possibly with re-emitted headers in front or a spacer behind). -/
def GoodPage (px : ℚ) (pg : List (Src × Line) × ℚ) : Prop :=
  pg.2 ≤ AVAILABLE_HEIGHT + px ∨ pg.1.length ≤ 3

/-- All sealed pages of a state satisfy the budget invariant. -/
def GoodPages (px : ℚ) (s : PState) : Prop :=
  ∀ pg ∈ s.pages, GoodPage px pg

/-- Running-state invariant holding at the start and after every non-table
block: within budget, or a single oversized unit of height at most
`1.5 * px`. -/
def CurN (px : ℚ) (s : PState) : Prop :=
  s.used ≤ AVAILABLE_HEIGHT ∨ (s.cur.length ≤ 1 ∧ s.used ≤ px * (3 / 2))

/-- Running-state invariant holding after a table block (and throughout the
row loop): within budget plus spacer slack, or one of the short forced
shapes of combined height at most `3 * px`. -/
def CurT (px : ℚ) (s : PState) : Prop :=
  s.used ≤ AVAILABLE_HEIGHT + px ∨ (s.cur.length ≤ 3 ∧ s.used ≤ 3 * px)

/-- Segmentation never produces two adjacent table blocks (a table block
absorbs all consecutive table lines). -/
def TableAlt (bs : List Block) : Prop :=
  List.Chain' (fun a b => a.kind = BKind.table → b.kind ≠ BKind.table) bs

/-- The header-continuity invariant for one page's tagged lines, relative to
the block list of the run: either the page contains no re-emitted header
line, or it begins with the two header lines of some table block of the run
followed by a data row (a row beyond the first two) of that block, with no
further header lines. -/
def PageOk (BL : List Block) (pls : List (Src × Line)) : Prop :=
  (∀ tl ∈ pls, tl.1 ≠ Src.header) ∨
    (∃ h1 h2 rest r tail,
      Block.mk BKind.table (h1 :: h2 :: rest) ∈ BL ∧ r ∈ rest ∧
      pls = (Src.header, h1) :: (Src.header, h2) :: (Src.orig, r) :: tail ∧
      ∀ tl ∈ tail, tl.1 ≠ Src.header)

/-- The header-continuity invariant for a whole processing state. -/
def StateHdrOk (BL : List Block) (s : PState) : Prop :=
  (∀ pg ∈ s.pages, PageOk BL pg.1) ∧ PageOk BL s.cur

/-- One step of the plain-text pipeline: place one visual line of height
`px`. -/
def packStep (px avail : ℚ) (s : PState) (v : Line) : PState :=
  placeUnit avail px (Src.orig, v) s

/-- The plain-text pipeline: place a sequence of visual lines, each of
height `px`. -/
def packFold (px avail : ℚ) (F : List Line) (s : PState) : PState :=
  F.foldl (packStep px avail) s

/-- How many uniform units of height `px` fit in the available budget. -/
def pageCapacity (px : ℚ) : ℕ :=
  (⌊AVAILABLE_HEIGHT / px⌋).toNat

/-- Closed form for the number of pages produced when packing `n ≥ 1`
uniform units onto pages of capacity `m`: `⌈n / m⌉` pages, or `n + 1` when
even a single unit overflows a page (each unit is forced onto its own page
after an empty page is sealed in front of the first). -/
def pageCountFormula (n m : ℕ) : ℕ :=
  if m = 0 then n + 1 else (n - 1) / m + 1

/-- The observable counting step of the page-assembly loop, abstracted from
`placeUnit`: the state is the number of sealed pages and the current
accumulated height; a unit of height `h` seals first when it overflows. -/
def cstep (avail : ℚ) (st : ℕ × ℚ) (h : ℚ) : ℕ × ℚ :=
  if avail < st.2 + h then (st.1 + 1, h) else (st.1, st.2 + h)

/-- Fold the counting step over a list of unit heights. -/
def cfold (avail : ℚ) (H : List ℚ) (st : ℕ × ℚ) : ℕ × ℚ :=
  H.foldl (cstep avail) st

/-- The counting projection of a processing state: sealed-page count and
current accumulated height. -/
def cproj (s : PState) : ℕ × ℚ :=
  (s.pages.length, s.used)

/-- Dominance between counting states: strictly more sealed pages, or the
same number with at least as much height already used. -/
def CDom (st1 st2 : ℕ × ℚ) : Prop :=
  st1.1 < st2.1 ∨ (st1.1 = st2.1 ∧ st1.2 ≤ st2.2)

/-- Scale-aware dominance between counting states of two runs whose unit
heights are `c * px1` and `c * px2` respectively: strictly more sealed
pages, or the same number with at least as large a used fraction of the
respective per-line height. -/
def SDom (px1 px2 : ℚ) (st1 st2 : ℕ × ℚ) : Prop :=
  st1.1 < st2.1 ∨ (st1.1 = st2.1 ∧ st1.2 * px2 ≤ st2.2 * px1)

/-- The unit-height coefficients (in multiples of `pxPerLine`) a non-table
line contributes to the page-assembly loop: a horizontal rule costs half a
line, a heading one and a half, any other line one per wrapped visual
line. -/
def lineUnits (cap : Option ℤ) (l : Line) : List ℚ :=
  if isHrLine l then [1 / 2]
  else if isHeadingLine l then [3 / 2]
  else List.replicate (wrapText l cap).length 1

/-- All unit-height coefficients of a document's lines, in order. -/
def docUnits (cap : Option ℤ) (ls : List Line) : List ℚ :=
  ls.flatMap (lineUnits cap)

/-! ### Lemmas about splitting and joining -/

theorem splitOnChar_ne_nil (c : Char) (s : List Char) : splitOnChar c s ≠ [] := by
  cases s with
  | nil => simp [splitOnChar]
  | cons a as => by_cases h : a = c <;> simp [splitOnChar, h]

theorem splitOnChar_exists_cons (c : Char) (s : List Char) :
    ∃ q qs, splitOnChar c s = q :: qs := by
  cases h : splitOnChar c s with
  | nil => exact absurd h (splitOnChar_ne_nil c s)
  | cons q qs => exact ⟨q, qs, rfl⟩

theorem splitOnChar_cons_of_eq (c : Char) (as : List Char) :
    splitOnChar c (c :: as) = [] :: splitOnChar c as := by
  simp [splitOnChar]

theorem splitOnChar_cons_of_ne {a c : Char} (h : a ≠ c) (as : List Char) :
    splitOnChar c (a :: as) =
      (a :: (splitOnChar c as).headD []) :: (splitOnChar c as).tail := by
  simp [splitOnChar, h]

theorem not_mem_splitOnChar (c : Char) (s : List Char) :
    ∀ p ∈ splitOnChar c s, c ∉ p := by
  induction s with
  | nil =>
      intro p hp
      simp [splitOnChar] at hp
      simp [hp]
  | cons a as ih =>
      intro p hp
      obtain ⟨q, qs, hqs⟩ := splitOnChar_exists_cons c as
      by_cases h : a = c
      · subst h
        rw [splitOnChar_cons_of_eq] at hp
        rcases List.mem_cons.mp hp with hp | hp
        · simp [hp]
        · exact ih p hp
      · rw [splitOnChar_cons_of_ne h, hqs] at hp
        simp only [List.headD_cons, List.tail_cons, List.mem_cons] at hp
        rcases hp with hp | hp
        · subst hp
          intro hc
          rcases List.mem_cons.mp hc with hc | hc
          · exact h hc.symm
          · exact ih q (by simp [hqs]) hc
        · exact ih p (by simp [hqs, hp])

theorem length_le_of_mem_splitOnChar (c : Char) (s : List Char) :
    ∀ p ∈ splitOnChar c s, p.length ≤ s.length := by
  induction s with
  | nil =>
      intro p hp
      simp [splitOnChar] at hp
      simp [hp]
  | cons a as ih =>
      intro p hp
      obtain ⟨q, qs, hqs⟩ := splitOnChar_exists_cons c as
      by_cases h : a = c
      · subst h
        rw [splitOnChar_cons_of_eq] at hp
        rcases List.mem_cons.mp hp with hp | hp
        · simp [hp]
        · exact (ih p hp).trans (Nat.le_succ as.length)
      · rw [splitOnChar_cons_of_ne h, hqs] at hp
        simp only [List.headD_cons, List.tail_cons, List.mem_cons] at hp
        rcases hp with hp | hp
        · subst hp
          simpa using ih q (by simp [hqs])
        · exact (ih p (by simp [hqs, hp])).trans (Nat.le_succ as.length)

theorem splitOnChar_of_not_mem {c : Char} {s : List Char} (h : c ∉ s) :
    splitOnChar c s = [s] := by
  induction s with
  | nil => rfl
  | cons a as ih =>
      have ha : a ≠ c := fun e => h (e ▸ List.mem_cons_self a as)
      have has : c ∉ as := fun e => h (List.mem_cons_of_mem a e)
      rw [splitOnChar_cons_of_ne ha, ih has]
      rfl

theorem joinWith_splitOnChar (c : Char) (s : List Char) :
    joinWith c (splitOnChar c s) = s := by
  induction s with
  | nil => rfl
  | cons a as ih =>
      obtain ⟨q, qs, hqs⟩ := splitOnChar_exists_cons c as
      by_cases h : a = c
      · subst h
        rw [splitOnChar_cons_of_eq, hqs]
        rw [hqs] at ih
        simpa [joinWith] using ih
      · rw [splitOnChar_cons_of_ne h, hqs]
        rw [hqs] at ih
        cases qs with
        | nil => simpa [joinWith] using ih
        | cons q2 qs2 => simpa [joinWith] using ih

theorem splitOnChar_append_sep (c : Char) (a b : List Char) :
    splitOnChar c (a ++ c :: b) = splitOnChar c a ++ splitOnChar c b := by
  induction a with
  | nil =>
      obtain ⟨q, qs, hqs⟩ := splitOnChar_exists_cons c b
      simp [splitOnChar_cons_of_eq, splitOnChar]
  | cons d a2 ih =>
      by_cases h : d = c
      · subst h
        simp only [List.cons_append, splitOnChar_cons_of_eq, ih]
      · obtain ⟨q, qs, hqs⟩ := splitOnChar_exists_cons c a2
        simp only [List.cons_append, splitOnChar_cons_of_ne h, ih, hqs]
        simp

theorem splitOnChar_joinWith (c : Char) (X : List (List Char)) (hX : X ≠ []) :
    splitOnChar c (joinWith c X) = X.flatMap (splitOnChar c) := by
  induction X with
  | nil => exact (hX rfl).elim
  | cons x xs ih =>
      cases xs with
      | nil => simp [joinWith, List.flatMap]
      | cons y ys =>
          have : joinWith c (x :: y :: ys) = x ++ c :: joinWith c (y :: ys) := rfl
          rw [this, splitOnChar_append_sep, ih (by simp)]
          simp [List.flatMap]

theorem flatMap_splitOnChar_eq_self {c : Char} :
    ∀ {X : List (List Char)}, (∀ p ∈ X, c ∉ p) → X.flatMap (splitOnChar c) = X := by
  intro X
  induction X with
  | nil => intro _; rfl
  | cons x xs ih =>
      intro h
      rw [List.flatMap_cons, splitOnChar_of_not_mem (h x (List.mem_cons_self x xs)),
        ih (fun p hp => h p (List.mem_cons_of_mem x hp))]
      rfl

/-! ### Lemmas about wrapping -/

theorem leCap_mono {n k : ℕ} (h : n ≤ k) {cap : Option ℤ}
    (hk : leCap k cap = true) : leCap n cap = true := by
  cases cap with
  | none => rfl
  | some m =>
      simp only [leCap, decide_eq_true_eq] at hk ⊢
      exact le_trans (by exact_mod_cast h) hk

theorem wrapLoop_flatMap (m : Option ℤ) (ws : List Line) (cur : Line) :
    ((wrapLoop m cur ws).map (splitOnChar ' ')).flatten
      = splitOnChar ' ' cur ++ ws.flatMap (splitOnChar ' ') := by
  induction ws generalizing cur with
  | nil => simp [wrapLoop]
  | cons w ws2 ih =>
      have hstep : wrapLoop m cur (w :: ws2) =
          if leCap (cur.length + 1 + w.length) m then
            wrapLoop m (cur ++ ' ' :: w) ws2
          else cur :: wrapLoop m w ws2 := rfl
      by_cases h : leCap (cur.length + 1 + w.length) m
      · rw [hstep, if_pos h, ih, splitOnChar_append_sep]
        simp
      · rw [hstep, if_neg h, List.map_cons, List.flatten_cons, ih w]
        simp

theorem wrapText_flatMap (s : Line) (m : Option ℤ) :
    ((wrapText s m).map (splitOnChar ' ')).flatten = splitOnChar ' ' s := by
  by_cases h : leCap s.length m
  · simp [wrapText, h]
  · obtain ⟨q, qs, hqs⟩ := splitOnChar_exists_cons ' ' s
    have hmem := not_mem_splitOnChar ' ' s
    rw [hqs] at hmem
    simp only [wrapText, hqs, List.headD_cons, List.tail_cons]
    rw [if_neg h, wrapLoop_flatMap,
      splitOnChar_of_not_mem (hmem q (List.mem_cons_self q qs)),
      flatMap_splitOnChar_eq_self (fun p hp => hmem p (List.mem_cons_of_mem q hp))]
    rfl

theorem wrapLoop_chunks (m : Option ℤ) (ws : List Line) (cur : Line)
    (hcur : (' ' ∉ cur) ∨ leCap cur.length m = true)
    (hws : ∀ w ∈ ws, ' ' ∉ w) :
    ∀ line ∈ wrapLoop m cur ws, (' ' ∉ line) ∨ leCap line.length m = true := by
  induction ws generalizing cur with
  | nil =>
      intro line hl
      simp only [wrapLoop, List.mem_singleton] at hl
      exact hl ▸ hcur
  | cons w ws2 ih =>
      intro line hl
      have hstep : wrapLoop m cur (w :: ws2) =
          if leCap (cur.length + 1 + w.length) m then
            wrapLoop m (cur ++ ' ' :: w) ws2
          else cur :: wrapLoop m w ws2 := rfl
      by_cases h : leCap (cur.length + 1 + w.length) m
      · rw [hstep, if_pos h] at hl
        refine ih (cur ++ ' ' :: w) (Or.inr ?_) (fun v hv => hws v (List.mem_cons_of_mem w hv)) line hl
        have hlen : (cur ++ ' ' :: w).length = cur.length + 1 + w.length := by
          simp [List.length_append]
          omega
        rw [hlen]
        exact h
      · rw [hstep, if_neg h] at hl
        rcases List.mem_cons.mp hl with hl | hl
        · exact hl ▸ hcur
        · exact ih w (Or.inl (hws w (List.mem_cons_self w ws2)))
            (fun v hv => hws v (List.mem_cons_of_mem w hv)) line hl

theorem wrapText_chunks (s : Line) (m : Option ℤ) :
    ∀ line ∈ wrapText s m, (' ' ∉ line) ∨ leCap line.length m = true := by
  intro line hl
  by_cases h : leCap s.length m
  · simp only [wrapText, h, if_true, List.mem_singleton] at hl
    exact hl ▸ Or.inr h
  · obtain ⟨q, qs, hqs⟩ := splitOnChar_exists_cons ' ' s
    have hmem := not_mem_splitOnChar ' ' s
    rw [hqs] at hmem
    simp only [wrapText, hqs, List.headD_cons, List.tail_cons] at hl
    rw [if_neg h] at hl
    exact wrapLoop_chunks m qs q (Or.inl (hmem q (List.mem_cons_self q qs)))
      (fun v hv => hmem v (List.mem_cons_of_mem q hv)) line hl

/-! ### Lemmas about block segmentation -/

theorem toBlocks_flatMap_content (ls : List Line) :
    (toBlocks ls).flatMap Block.content = ls := by
  induction ls with
  | nil => rfl
  | cons l ls ih =>
      by_cases ht : isTableLine l
      · cases hb : toBlocks ls with
        | nil =>
            rw [hb] at ih
            simp [toBlocks, ht, hb, List.flatMap_cons]
            simpa using ih
        | cons b bs =>
            rw [hb] at ih
            obtain ⟨k, c⟩ := b
            cases k with
            | table =>
                simp only [toBlocks, ht, if_true, hb]
                simp only [List.flatMap_cons] at ih ⊢
                simp [← ih]
            | hr =>
                simp only [toBlocks, ht, if_true, hb]
                simp only [List.flatMap_cons] at ih ⊢
                simp [ih]
            | text =>
                simp only [toBlocks, ht, if_true, hb]
                simp only [List.flatMap_cons] at ih ⊢
                simp [ih]
      · by_cases hh : isHrLine l
        · simp [toBlocks, ht, hh, List.flatMap_cons, ih]
        · simp [toBlocks, ht, hh, List.flatMap_cons, ih]

theorem exists_block_of_mem {ls : List Line} {l : Line} (h : l ∈ ls) :
    ∃ b ∈ toBlocks ls, l ∈ b.content := by
  rw [← toBlocks_flatMap_content ls] at h
  exact List.mem_flatMap.mp h

theorem toBlocks_cons_table_merge {l : Line} {ls : List Line} {c : List Line}
    {bs : List Block} (h : isTableLine l = true)
    (hb : toBlocks ls = Block.mk BKind.table c :: bs) :
    toBlocks (l :: ls) = Block.mk BKind.table (l :: c) :: bs := by
  simp [toBlocks, h, hb]

theorem toBlocks_shape (ls : List Line) :
    ∀ b ∈ toBlocks ls,
      (b.kind = BKind.table → b.content ≠ [] ∧ ∀ l ∈ b.content, isTableLine l = true) ∧
      (b.kind = BKind.hr →
        ∃ l, b.content = [l] ∧ isTableLine l = false ∧ isHrLine l = true) ∧
      (b.kind = BKind.text →
        ∃ l, b.content = [l] ∧ isTableLine l = false ∧ isHrLine l = false) := by
  induction ls with
  | nil => intro b hb; simp [toBlocks] at hb
  | cons l ls ih =>
      intro b hb
      by_cases ht : isTableLine l
      · cases hb2 : toBlocks ls with
        | nil =>
            rw [hb2] at ih
            simp only [toBlocks, ht, if_true, hb2, List.mem_singleton] at hb
            subst hb
            refine ⟨fun _ => ⟨by simp, ?_⟩, fun h2 => by simp at h2, fun h2 => by simp at h2⟩
            intro x hx
            simp at hx
            exact hx ▸ ht
        | cons b2 bs =>
            rw [hb2] at ih
            obtain ⟨k, c⟩ := b2
            cases k with
            | table =>
                simp only [toBlocks, ht, if_true, hb2, List.mem_cons] at hb
                rcases hb with hb | hb
                · subst hb
                  have hold := (ih ⟨BKind.table, c⟩ (List.mem_cons_self _ _)).1 rfl
                  refine ⟨fun _ => ⟨by simp, ?_⟩, fun h2 => by simp at h2,
                    fun h2 => by simp at h2⟩
                  intro x hx
                  rcases List.mem_cons.mp hx with hx | hx
                  · exact hx ▸ ht
                  · exact hold.2 x hx
                · exact ih b (List.mem_cons_of_mem _ hb)
            | hr =>
                simp only [toBlocks, ht, if_true, hb2, List.mem_cons] at hb
                rcases hb with hb | hb
                · subst hb
                  refine ⟨fun _ => ⟨by simp, ?_⟩, fun h2 => by simp at h2,
                    fun h2 => by simp at h2⟩
                  intro x hx
                  simp at hx
                  exact hx ▸ ht
                · rcases hb with hb | hb
                  · exact hb ▸ ih ⟨BKind.hr, c⟩ (List.mem_cons_self _ _)
                  · exact ih b (List.mem_cons_of_mem _ hb)
            | text =>
                simp only [toBlocks, ht, if_true, hb2, List.mem_cons] at hb
                rcases hb with hb | hb
                · subst hb
                  refine ⟨fun _ => ⟨by simp, ?_⟩, fun h2 => by simp at h2,
                    fun h2 => by simp at h2⟩
                  intro x hx
                  simp at hx
                  exact hx ▸ ht
                · rcases hb with hb | hb
                  · exact hb ▸ ih ⟨BKind.text, c⟩ (List.mem_cons_self _ _)
                  · exact ih b (List.mem_cons_of_mem _ hb)
      · by_cases hh : isHrLine l
        · have hstep : toBlocks (l :: ls) = Block.mk BKind.hr [l] :: toBlocks ls := by
            simp [toBlocks, ht, hh]
          rw [hstep] at hb
          rcases List.mem_cons.mp hb with hb | hb
          · subst hb
            exact ⟨fun h2 => by simp at h2, fun _ => ⟨l, rfl, by simp [ht], hh⟩,
              fun h2 => by simp at h2⟩
          · exact ih b hb
        · have hstep : toBlocks (l :: ls) = Block.mk BKind.text [l] :: toBlocks ls := by
            simp [toBlocks, ht, hh]
          rw [hstep] at hb
          rcases List.mem_cons.mp hb with hb | hb
          · subst hb
            exact ⟨fun h2 => by simp at h2, fun h2 => by simp at h2,
              fun _ => ⟨l, rfl, by simp [ht], by simp [hh]⟩⟩
          · exact ih b hb

theorem toBlocks_tableAlt (ls : List Line) : TableAlt (toBlocks ls) := by
  induction ls with
  | nil => exact List.chain'_nil
  | cons l ls ih =>
      by_cases ht : isTableLine l
      · cases hb : toBlocks ls with
        | nil => simp [TableAlt, toBlocks, ht, hb]
        | cons b bs =>
            rw [hb] at ih
            obtain ⟨k, c⟩ := b
            cases k with
            | table =>
                simp only [toBlocks, ht, if_true, hb]
                cases bs with
                | nil => simp [TableAlt]
                | cons b2 bs2 =>
                    rw [TableAlt, List.chain'_cons]
                    rw [TableAlt, List.chain'_cons] at ih
                    exact ⟨ih.1, ih.2⟩
            | hr =>
                simp only [toBlocks, ht, if_true, hb]
                rw [TableAlt, List.chain'_cons]
                exact ⟨fun _ => by simp, ih⟩
            | text =>
                simp only [toBlocks, ht, if_true, hb]
                rw [TableAlt, List.chain'_cons]
                exact ⟨fun _ => by simp, ih⟩
      · by_cases hh : isHrLine l
        · have hstep : toBlocks (l :: ls) = Block.mk BKind.hr [l] :: toBlocks ls := by
            simp [toBlocks, ht, hh]
          cases hb : toBlocks ls with
          | nil => rw [hstep, hb]; simp [TableAlt]
          | cons b bs =>
              rw [hb] at ih
              rw [hstep, hb, TableAlt, List.chain'_cons]
              exact ⟨fun h2 => by simp at h2, ih⟩
        · have hstep : toBlocks (l :: ls) = Block.mk BKind.text [l] :: toBlocks ls := by
            simp [toBlocks, ht, hh]
          cases hb : toBlocks ls with
          | nil => rw [hstep, hb]; simp [TableAlt]
          | cons b bs =>
              rw [hb] at ih
              rw [hstep, hb, TableAlt, List.chain'_cons]
              exact ⟨fun h2 => by simp at h2, ih⟩

theorem toBlocks_of_no_tables {ls : List Line} (h : ∀ l ∈ ls, isTableLine l = false) :
    toBlocks ls = ls.map (fun l =>
      if isHrLine l then Block.mk BKind.hr [l] else Block.mk BKind.text [l]) := by
  induction ls with
  | nil => rfl
  | cons l ls ih =>
      have ht := h l (List.mem_cons_self l ls)
      have ihh := ih (fun x hx => h x (List.mem_cons_of_mem l hx))
      by_cases hh : isHrLine l
      · simp [toBlocks, ht, hh, ihh]
      · simp [toBlocks, ht, hh, ihh]

theorem toBlocks_of_plain {ls : List Line}
    (h : ∀ l ∈ ls, isTableLine l = false ∧ isHrLine l = false) :
    toBlocks ls = ls.map (fun l => Block.mk BKind.text [l]) := by
  rw [toBlocks_of_no_tables (fun l hl => (h l hl).1)]
  exact List.map_congr_left (fun l hl => by simp [(h l hl).2])

theorem toBlocks_table {l : Line} {ls : List Line} (h : isTableLine l = true) :
    toBlocks (l :: ls) =
      Block.mk BKind.table ((l :: ls).takeWhile isTableLine) ::
        toBlocks ((l :: ls).dropWhile isTableLine) := by
  induction ls generalizing l with
  | nil => simp [toBlocks, h, List.takeWhile, List.dropWhile]
  | cons l2 ls2 ih =>
      by_cases ht2 : isTableLine l2
      · rw [toBlocks_cons_table_merge h (ih ht2)]
        simp [List.takeWhile_cons, List.dropWhile_cons, h, ht2]
      · have hnot : toBlocks (l2 :: ls2) =
            (if isHrLine l2 then Block.mk BKind.hr [l2] else Block.mk BKind.text [l2]) ::
              toBlocks ls2 := by
          by_cases hh : isHrLine l2 <;> simp [toBlocks, ht2, hh]
        have hstep : toBlocks (l :: l2 :: ls2) =
            Block.mk BKind.table [l] :: toBlocks (l2 :: ls2) := by
          by_cases hh : isHrLine l2 <;> simp [toBlocks, h, ht2, hh]
        rw [hstep]
        simp [List.takeWhile_cons, List.dropWhile_cons, h, ht2]

/-! ### Provenance: the original-line content of a processing state -/

theorem origOfPage_append (a b : List (Src × Line)) :
    origOfPage (a ++ b) = origOfPage a ++ origOfPage b := by
  simp [origOfPage, List.filterMap_append]

theorem stateOrig_pushPage (s : PState) : stateOrig (pushPage s) = stateOrig s := by
  simp [stateOrig, pushPage, origOfPage]

theorem stateOrig_placeUnit (avail h : ℚ) (v : Line) (s : PState) :
    stateOrig (placeUnit avail h (Src.orig, v) s) = stateOrig s ++ [v] := by
  by_cases hc : avail < s.used + h
  · simp [placeUnit, hc, pushPage, stateOrig, origOfPage_append, origOfPage]
  · simp [placeUnit, hc, stateOrig, origOfPage_append, origOfPage]

theorem wrapText_of_leCap {s : Line} {m : Option ℤ} (h : leCap s.length m = true) :
    wrapText s m = [s] := by
  simp [wrapText, h]

theorem getLineHeight_text (px : ℚ) : getLineHeight px false false false = px := rfl

theorem stateOrig_packFold (px avail : ℚ) (F : List Line) (s : PState) :
    stateOrig (packFold px avail F s) = stateOrig s ++ F := by
  induction F generalizing s with
  | nil => simp [packFold]
  | cons v F ih =>
      have : packFold px avail (v :: F) s = packFold px avail F (packStep px avail s v) := rfl
      rw [this, ih, packStep, stateOrig_placeUnit]
      simp

theorem origOfPage_nil : origOfPage [] = [] := rfl

theorem origOfPage_singleton_spacer (l : Line) :
    origOfPage [(Src.spacer, l)] = [] := rfl

theorem origOfPage_cons_spacer (l : Line) (rest : List (Src × Line)) :
    origOfPage ((Src.spacer, l) :: rest) = origOfPage rest := rfl

theorem origOfPage_cons_header (l : Line) (rest : List (Src × Line)) :
    origOfPage ((Src.header, l) :: rest) = origOfPage rest := rfl

theorem origOfPage_cons_orig (l : Line) (rest : List (Src × Line)) :
    origOfPage ((Src.orig, l) :: rest) = l :: origOfPage rest := rfl

theorem origOfPage_map_orig (c : List Line) :
    origOfPage (c.map (fun l => (Src.orig, l))) = c := by
  induction c with
  | nil => rfl
  | cons x xs ih => simp [origOfPage] at ih ⊢; exact ih

theorem stateOrig_tableRowsLoop (px avail : ℚ) (headers : List Line)
    (rows : List Line) (r : ℕ) (s : PState) :
    stateOrig (tableRowsLoop px avail headers rows r s) = stateOrig s ++ rows := by
  induction rows generalizing r s with
  | nil => simp [tableRowsLoop]
  | cons row rest ih =>
      have hstep : tableRowsLoop px avail headers (row :: rest) r s =
          tableRowsLoop px avail headers rest (r + 1)
            (let s1 :=
              if avail < s.used + px then
                let sp := pushPage s
                if 2 ≤ r ∧ headers.length = 2 then
                  ⟨sp.pages, headers.map (fun h => (Src.header, h)), 2 * px⟩
                else sp
              else s
            ⟨s1.pages, s1.cur ++ [(Src.orig, row)], s1.used + px⟩) := rfl
      rw [hstep, ih]
      by_cases hc : avail < s.used + px
      · by_cases hh : 2 ≤ r ∧ headers.length = 2
        · simp [hc, hh, pushPage, stateOrig, origOfPage_append, origOfPage,
            List.filterMap_map]
        · simp [hc, hh, pushPage, stateOrig, origOfPage_append, origOfPage]
      · simp [hc, stateOrig, origOfPage_append, origOfPage]

theorem stateOrig_procTable (px avail : ℚ) (content : List Line) (s : PState) :
    stateOrig (procTable px avail content s) = stateOrig s ++ content := by
  rw [procTable]
  by_cases hfit : s.used + (content.length : ℚ) * px ≤ avail
  · rw [if_pos hfit]
    by_cases hne : 0 < s.cur.length
    · simp [hne, stateOrig, origOfPage_append, origOfPage_map_orig,
        origOfPage_singleton_spacer, origOfPage_cons_spacer, origOfPage_nil]
    · simp [hne, stateOrig, origOfPage_append, origOfPage_map_orig,
        origOfPage_singleton_spacer, origOfPage_cons_spacer, origOfPage_nil]
  · rw [if_neg hfit]
    by_cases hsp : 0 < s.cur.length ∧ 0 < s.used
    · rw [if_pos hsp, stateOrig_tableRowsLoop]
      simp [stateOrig, origOfPage_append, origOfPage]
    · rw [if_neg hsp, stateOrig_tableRowsLoop]

theorem stateOrig_procHr (px avail : ℚ) (content : List Line) (s : PState) :
    stateOrig (procHr px avail content s) = stateOrig s ++ [content.headD []] := by
  rw [procHr, stateOrig_placeUnit]

theorem stateOrig_procText (px avail : ℚ) (m : Option ℤ) (line : Line) (s : PState) :
    stateOrig (procText px avail m line s) =
      stateOrig s ++ (if isHeadingLine line then [line] else wrapText line m) := by
  by_cases hh : isHeadingLine line
  · rw [procText, if_pos hh, stateOrig_placeUnit, if_pos hh]
  · rw [procText, if_neg hh, if_neg hh]
    exact stateOrig_packFold px avail (wrapText line m) s

theorem stateOrig_procBlock (px avail : ℚ) (m : Option ℤ) (s : PState) (b : Block) :
    stateOrig (procBlock px avail m s b) = stateOrig s ++ blockEmits m b := by
  obtain ⟨k, c⟩ := b
  cases k with
  | table => exact stateOrig_procTable px avail c s
  | hr => exact stateOrig_procHr px avail c s
  | text => exact stateOrig_procText px avail m (c.headD []) s

theorem stateOrig_processBlocks (px avail : ℚ) (m : Option ℤ)
    (blocks : List Block) (s : PState) :
    stateOrig (processBlocks px avail m blocks s) =
      stateOrig s ++ blocks.flatMap (blockEmits m) := by
  induction blocks generalizing s with
  | nil => simp [processBlocks]
  | cons b bs ih =>
      have : processBlocks px avail m (b :: bs) s =
          processBlocks px avail m bs (procBlock px avail m s b) := rfl
      rw [this, ih, stateOrig_procBlock]
      simp

theorem origLines_sealFinal (s : PState) : origLines (sealFinal s) = stateOrig s := by
  by_cases hc : 0 < s.cur.length
  · simp [sealFinal, hc, origLines, stateOrig]
  · have : s.cur = [] := by
      cases h : s.cur with
      | nil => rfl
      | cons a as => rw [h] at hc; simp at hc
    simp [sealFinal, hc, origLines, stateOrig, this, origOfPage]

theorem origLines_paginatePagesH (text : List Char) (f l : ℚ) :
    origLines (paginatePagesH text f l) =
      (toBlocks (splitOnChar '\n' text)).flatMap (blockEmits (charsPerLine f)) := by
  rw [paginatePagesH, origLines_sealFinal, stateOrig_processBlocks]
  simp [stateOrig, origOfPage]

/-! ### The budget invariant -/

theorem AVAILABLE_HEIGHT_pos : (0 : ℚ) < AVAILABLE_HEIGHT := by
  norm_num [AVAILABLE_HEIGHT]

theorem wrapLoop_ne_nil (m : Option ℤ) (cur : Line) (ws : List Line) :
    wrapLoop m cur ws ≠ [] := by
  induction ws generalizing cur with
  | nil => simp [wrapLoop]
  | cons w ws2 ih =>
      have hstep : wrapLoop m cur (w :: ws2) =
          if leCap (cur.length + 1 + w.length) m then
            wrapLoop m (cur ++ ' ' :: w) ws2
          else cur :: wrapLoop m w ws2 := rfl
      rw [hstep]
      by_cases h : leCap (cur.length + 1 + w.length) m
      · rw [if_pos h]; exact ih (cur ++ ' ' :: w)
      · rw [if_neg h]; simp

theorem wrapText_ne_nil (s : Line) (m : Option ℤ) : wrapText s m ≠ [] := by
  by_cases h : leCap s.length m
  · simp [wrapText, h]
  · simp only [wrapText]
    rw [if_neg h]
    exact wrapLoop_ne_nil m _ _

theorem getLineHeight_heading (px : ℚ) : getLineHeight px true false false = px * (3 / 2) := rfl

theorem getLineHeight_hr (px : ℚ) : getLineHeight px false false true = px * (1 / 2) := rfl

theorem getLineHeight_table (px : ℚ) : getLineHeight px false true false = px * 1 := rfl

theorem goodPage_of_seal {px : ℚ} {s : PState} (hpx : 0 < px)
    (hC : CurN px s ∨ CurT px s) : GoodPage px (s.cur, s.used) := by
  rcases hC with hC | hC
  · rcases hC with hC | hC
    · exact Or.inl (by simp only; linarith)
    · exact Or.inr (le_trans hC.1 (by norm_num))
  · rcases hC with hC | hC
    · exact Or.inl (by simpa using hC)
    · exact Or.inr hC.1

theorem placeUnit_inv {px h : ℚ} (t : Src × Line) (s : PState) (hpx : 0 < px)
    (_hh0 : 0 < h) (hh : h ≤ px * (3 / 2)) (hG : GoodPages px s)
    (hC : CurN px s ∨ CurT px s) :
    GoodPages px (placeUnit AVAILABLE_HEIGHT h t s) ∧
      CurN px (placeUnit AVAILABLE_HEIGHT h t s) := by
  by_cases hc : AVAILABLE_HEIGHT < s.used + h
  · have hpl : placeUnit AVAILABLE_HEIGHT h t s =
        ⟨s.pages ++ [(s.cur, s.used)], [t], 0 + h⟩ := by
      simp [placeUnit, hc, pushPage]
    rw [hpl]
    refine ⟨?_, ?_⟩
    · intro pg hpg
      rcases List.mem_append.mp hpg with hpg | hpg
      · exact hG pg hpg
      · rw [List.mem_singleton.mp hpg]
        exact goodPage_of_seal hpx hC
    · exact Or.inr ⟨by simp, by simp only; linarith⟩
  · have hpl : placeUnit AVAILABLE_HEIGHT h t s =
        ⟨s.pages, s.cur ++ [t], s.used + h⟩ := by
      simp [placeUnit, hc]
    rw [hpl]
    exact ⟨hG, Or.inl (by simp only; linarith)⟩

theorem packFold_inv {px : ℚ} (F : List Line) (s : PState) (hpx : 0 < px)
    (hG : GoodPages px s) (hC : CurN px s) :
    GoodPages px (packFold px AVAILABLE_HEIGHT F s) ∧
      CurN px (packFold px AVAILABLE_HEIGHT F s) := by
  induction F generalizing s with
  | nil => exact ⟨hG, hC⟩
  | cons v F ih =>
      have hstep : packFold px AVAILABLE_HEIGHT (v :: F) s =
          packFold px AVAILABLE_HEIGHT F (packStep px AVAILABLE_HEIGHT s v) := rfl
      rw [hstep]
      have h1 := placeUnit_inv (Src.orig, v) s hpx hpx (by linarith) hG (Or.inl hC)
      exact ih _ h1.1 h1.2

theorem procText_inv {px : ℚ} (m : Option ℤ) (line : Line) (s : PState) (hpx : 0 < px)
    (hG : GoodPages px s) (hC : CurN px s ∨ CurT px s) :
    GoodPages px (procText px AVAILABLE_HEIGHT m line s) ∧
      CurN px (procText px AVAILABLE_HEIGHT m line s) := by
  by_cases hh : isHeadingLine line
  · rw [procText, if_pos hh]
    exact placeUnit_inv _ s hpx (by rw [getLineHeight_heading]; linarith)
      (by rw [getLineHeight_heading]) hG hC
  · rw [procText, if_neg hh]
    cases hfr : wrapText line m with
    | nil => exact absurd hfr (wrapText_ne_nil line m)
    | cons v F =>
        have h1 : GoodPages px (placeUnit AVAILABLE_HEIGHT px (Src.orig, v) s) ∧
            CurN px (placeUnit AVAILABLE_HEIGHT px (Src.orig, v) s) :=
          placeUnit_inv (Src.orig, v) s hpx hpx (by linarith) hG hC
        have h2 := packFold_inv F _ hpx h1.1 h1.2
        simpa [packFold, packStep, getLineHeight_text, List.foldl_cons] using h2

theorem procHr_inv {px : ℚ} (content : List Line) (s : PState) (hpx : 0 < px)
    (hG : GoodPages px s) (hC : CurN px s ∨ CurT px s) :
    GoodPages px (procHr px AVAILABLE_HEIGHT content s) ∧
      CurN px (procHr px AVAILABLE_HEIGHT content s) := by
  rw [procHr]
  exact placeUnit_inv _ s hpx (by rw [getLineHeight_hr]; linarith)
    (by rw [getLineHeight_hr]; linarith) hG hC

theorem tableRowsLoop_inv {px : ℚ} (headers rows : List Line) (r : ℕ) (s : PState)
    (hpx : 0 < px) (hG : GoodPages px s) (hT : CurT px s) :
    GoodPages px (tableRowsLoop px AVAILABLE_HEIGHT headers rows r s) ∧
      CurT px (tableRowsLoop px AVAILABLE_HEIGHT headers rows r s) := by
  induction rows generalizing r s with
  | nil => exact ⟨hG, hT⟩
  | cons row rest ih =>
      by_cases hc : AVAILABLE_HEIGHT < s.used + px
      · by_cases hhd : 2 ≤ r ∧ headers.length = 2
        · have hstep : tableRowsLoop px AVAILABLE_HEIGHT headers (row :: rest) r s =
              tableRowsLoop px AVAILABLE_HEIGHT headers rest (r + 1)
                ⟨s.pages ++ [(s.cur, s.used)],
                  headers.map (fun h => (Src.header, h)) ++ [(Src.orig, row)],
                  2 * px + px⟩ := by
            show tableRowsLoop px AVAILABLE_HEIGHT headers rest (r + 1) _ =
              tableRowsLoop px AVAILABLE_HEIGHT headers rest (r + 1) _
            congr 1
            simp [hc, hhd, pushPage]
          rw [hstep]
          refine ih (r + 1) _ ?_ ?_
          · intro pg hpg
            rcases List.mem_append.mp hpg with hpg | hpg
            · exact hG pg hpg
            · rw [List.mem_singleton.mp hpg]
              exact goodPage_of_seal hpx (Or.inr hT)
          · refine Or.inr ⟨?_, ?_⟩
            · simp [hhd.2]
            · simp only
              linarith
        · have hstep : tableRowsLoop px AVAILABLE_HEIGHT headers (row :: rest) r s =
              tableRowsLoop px AVAILABLE_HEIGHT headers rest (r + 1)
                ⟨s.pages ++ [(s.cur, s.used)], [(Src.orig, row)], 0 + px⟩ := by
            show tableRowsLoop px AVAILABLE_HEIGHT headers rest (r + 1) _ =
              tableRowsLoop px AVAILABLE_HEIGHT headers rest (r + 1) _
            congr 1
            simp [hc, hhd, pushPage]
          rw [hstep]
          refine ih (r + 1) _ ?_ ?_
          · intro pg hpg
            rcases List.mem_append.mp hpg with hpg | hpg
            · exact hG pg hpg
            · rw [List.mem_singleton.mp hpg]
              exact goodPage_of_seal hpx (Or.inr hT)
          · refine Or.inr ⟨by simp, ?_⟩
            simp only
            linarith
      · have hstep : tableRowsLoop px AVAILABLE_HEIGHT headers (row :: rest) r s =
              tableRowsLoop px AVAILABLE_HEIGHT headers rest (r + 1)
                ⟨s.pages, s.cur ++ [(Src.orig, row)], s.used + px⟩ := by
            show tableRowsLoop px AVAILABLE_HEIGHT headers rest (r + 1) _ =
              tableRowsLoop px AVAILABLE_HEIGHT headers rest (r + 1) _
            congr 1
            simp [hc]
        have hle : s.used + px ≤ AVAILABLE_HEIGHT := le_of_not_lt hc
        rw [hstep]
        refine ih (r + 1) _ (fun pg hpg => hG pg hpg) (Or.inl ?_)
        simp only
        linarith

theorem procTable_inv {px : ℚ} (content : List Line) (s : PState) (hpx : 0 < px)
    (hG : GoodPages px s) (hN : CurN px s) :
    GoodPages px (procTable px AVAILABLE_HEIGHT content s) ∧
      CurT px (procTable px AVAILABLE_HEIGHT content s) := by
  rw [procTable]
  by_cases hfit : s.used + (content.length : ℚ) * px ≤ AVAILABLE_HEIGHT
  · rw [if_pos hfit]
    by_cases hne : 0 < s.cur.length
    · refine ⟨by simpa [hne] using hG, Or.inl ?_⟩
      simp [hne]
      linarith
    · refine ⟨by simpa [hne] using hG, Or.inl ?_⟩
      simp [hne]
      linarith
  · rw [if_neg hfit]
    by_cases hsp : 0 < s.cur.length ∧ 0 < s.used
    · rw [if_pos hsp]
      refine tableRowsLoop_inv _ _ _ _ hpx (by simpa using hG) ?_
      rcases hN with hN | hN
      · exact Or.inl (by simp; linarith)
      · refine Or.inr ⟨by simp; omega, by simp; linarith [hN.2]⟩
    · rw [if_neg hsp]
      refine tableRowsLoop_inv _ _ _ _ hpx hG ?_
      rcases hN with hN | hN
      · exact Or.inl (by linarith)
      · exact Or.inr ⟨by omega, by linarith [hN.2]⟩

theorem processBlocks_inv {px : ℚ} (m : Option ℤ) (blocks : List Block) (s : PState)
    (hpx : 0 < px) (halt : TableAlt blocks) (hG : GoodPages px s)
    (hC : CurN px s ∨
      (CurT px s ∧ ∀ b, blocks.head? = some b → b.kind ≠ BKind.table)) :
    GoodPages px (processBlocks px AVAILABLE_HEIGHT m blocks s) ∧
      (CurN px (processBlocks px AVAILABLE_HEIGHT m blocks s) ∨
        CurT px (processBlocks px AVAILABLE_HEIGHT m blocks s)) := by
  induction blocks generalizing s with
  | nil =>
      refine ⟨hG, ?_⟩
      rcases hC with hC | hC
      · exact Or.inl hC
      · exact Or.inr hC.1
  | cons b bs ih =>
      have hstep : processBlocks px AVAILABLE_HEIGHT m (b :: bs) s =
          processBlocks px AVAILABLE_HEIGHT m bs (procBlock px AVAILABLE_HEIGHT m s b) := rfl
      rw [hstep]
      have halt2 := (List.chain'_cons'.mp halt).2
      have hrel := (List.chain'_cons'.mp halt).1
      obtain ⟨k, c⟩ := b
      cases k with
      | table =>
          have hN : CurN px s := by
            rcases hC with hC | hC
            · exact hC
            · exact absurd rfl (hC.2 ⟨BKind.table, c⟩ rfl)
          have h1 := procTable_inv c s hpx hG hN
          refine ih _ halt2 h1.1 (Or.inr ⟨h1.2, ?_⟩)
          intro b2 hb2
          exact hrel b2 (Option.mem_def.mpr hb2) rfl
      | hr =>
          have hCsimple : CurN px s ∨ CurT px s := by
            rcases hC with hC | hC
            · exact Or.inl hC
            · exact Or.inr hC.1
          have h1 := procHr_inv c s hpx hG hCsimple
          exact ih _ halt2 h1.1 (Or.inl h1.2)
      | text =>
          have hCsimple : CurN px s ∨ CurT px s := by
            rcases hC with hC | hC
            · exact Or.inl hC
            · exact Or.inr hC.1
          have h1 := procText_inv m (c.headD []) s hpx hG hCsimple
          exact ih _ halt2 h1.1 (Or.inl h1.2)

theorem paginatePagesH_good (text : List Char) (f l : ℚ) (hf : 0 < f) (hl : 0 < l) :
    ∀ pg ∈ paginatePagesH text f l, GoodPage (f * l) pg := by
  have hpx : 0 < f * l := mul_pos hf hl
  have hinit : CurN (f * l) ⟨[], [], 0⟩ :=
    Or.inl (by simpa using le_of_lt AVAILABLE_HEIGHT_pos)
  have h1 := processBlocks_inv (charsPerLine f) (toBlocks (splitOnChar '\n' text))
    ⟨[], [], 0⟩ hpx (toBlocks_tableAlt _) (by intro pg hpg; simp at hpg)
    (Or.inl hinit)
  intro pg hpg
  rw [paginatePagesH] at hpg
  simp only [sealFinal] at hpg
  by_cases hcur : 0 < (processBlocks (f * l) AVAILABLE_HEIGHT (charsPerLine f)
      (toBlocks (splitOnChar '\n' text)) ⟨[], [], 0⟩).cur.length
  · rw [if_pos hcur] at hpg
    rcases List.mem_append.mp hpg with hpg | hpg
    · exact h1.1 pg hpg
    · rw [List.mem_singleton.mp hpg]
      exact goodPage_of_seal hpx h1.2
  · rw [if_neg hcur] at hpg
    exact h1.1 pg hpg

/-! ### The header-continuity invariant -/

theorem pageOk_nil (BL : List Block) : PageOk BL [] :=
  Or.inl (by intro tl htl; simp at htl)

theorem pageOk_append {BL : List Block} {pls : List (Src × Line)}
    (h : PageOk BL pls) {L : List (Src × Line)}
    (hL : ∀ tl ∈ L, tl.1 ≠ Src.header) : PageOk BL (pls ++ L) := by
  rcases h with h | ⟨h1, h2, rest, r, tail, hmem, hr, hshape, htail⟩
  · left
    intro tl htl
    rcases List.mem_append.mp htl with htl | htl
    · exact h tl htl
    · exact hL tl htl
  · right
    refine ⟨h1, h2, rest, r, tail ++ L, hmem, hr, by rw [hshape]; simp, ?_⟩
    intro tl htl
    rcases List.mem_append.mp htl with htl | htl
    · exact htail tl htl
    · exact hL tl htl

theorem stateHdrOk_placeUnit {BL : List Block} {s : PState} (avail h : ℚ)
    {t : Src × Line} (ht : t.1 ≠ Src.header) (hs : StateHdrOk BL s) :
    StateHdrOk BL (placeUnit avail h t s) := by
  by_cases hc : avail < s.used + h
  · have hpl : placeUnit avail h t s =
        ⟨s.pages ++ [(s.cur, s.used)], [t], 0 + h⟩ := by
      simp [placeUnit, hc, pushPage]
    rw [hpl]
    refine ⟨?_, ?_⟩
    · intro pg hpg
      rcases List.mem_append.mp hpg with hpg | hpg
      · exact hs.1 pg hpg
      · rw [List.mem_singleton.mp hpg]
        exact hs.2
    · have := pageOk_append (pageOk_nil BL) (L := [t])
        (by intro tl htl; rw [List.mem_singleton.mp htl]; exact ht)
      simpa using this
  · have hpl : placeUnit avail h t s = ⟨s.pages, s.cur ++ [t], s.used + h⟩ := by
      simp [placeUnit, hc]
    rw [hpl]
    exact ⟨hs.1, pageOk_append hs.2
      (by intro tl htl; rw [List.mem_singleton.mp htl]; exact ht)⟩

theorem stateHdrOk_packFold {BL : List Block} (px avail : ℚ) (F : List Line)
    {s : PState} (hs : StateHdrOk BL s) :
    StateHdrOk BL (packFold px avail F s) := by
  induction F generalizing s with
  | nil => exact hs
  | cons v F ih =>
      have hstep : packFold px avail (v :: F) s =
          packFold px avail F (packStep px avail s v) := rfl
      rw [hstep]
      exact ih (stateHdrOk_placeUnit avail px (by simp) hs)

theorem tableRowsLoop_hdrOk {px : ℚ} {BL : List Block} {content : List Line}
    (hB : Block.mk BKind.table content ∈ BL) :
    ∀ (rows : List Line) (r : ℕ) (s : PState), rows = content.drop r →
      StateHdrOk BL s →
      StateHdrOk BL
        (tableRowsLoop px AVAILABLE_HEIGHT (content.take 2) rows r s) := by
  intro rows
  induction rows with
  | nil => intro r s _ hs; exact hs
  | cons row rest ih =>
      intro r s hrows hs
      have hrest : rest = content.drop (r + 1) := by
        rw [← List.tail_drop, ← hrows]
        rfl
      by_cases hc : AVAILABLE_HEIGHT < s.used + px
      · by_cases hhd : 2 ≤ r ∧ (content.take 2).length = 2
        · have hstep : tableRowsLoop px AVAILABLE_HEIGHT (content.take 2)
              (row :: rest) r s =
              tableRowsLoop px AVAILABLE_HEIGHT (content.take 2) rest (r + 1)
                ⟨s.pages ++ [(s.cur, s.used)],
                  (content.take 2).map (fun h => (Src.header, h)) ++ [(Src.orig, row)],
                  2 * px + px⟩ := by
            show tableRowsLoop px AVAILABLE_HEIGHT (content.take 2) rest (r + 1) _ =
              tableRowsLoop px AVAILABLE_HEIGHT (content.take 2) rest (r + 1) _
            congr 1
            rw [if_pos hc, if_pos hhd]
            rfl
          rw [hstep]
          refine ih (r + 1) _ hrest ⟨?_, ?_⟩
          · intro pg hpg
            rcases List.mem_append.mp hpg with hpg | hpg
            · exact hs.1 pg hpg
            · rw [List.mem_singleton.mp hpg]
              exact hs.2
          · obtain ⟨h1, h2, rest2, hcontent⟩ :
                ∃ h1 h2 rest2, content = h1 :: h2 :: rest2 := by
              cases content with
              | nil => simp at hhd
              | cons x xs =>
                  cases xs with
                  | nil => simp at hhd
                  | cons y ys => exact ⟨x, y, ys, rfl⟩
            have htake : content.take 2 = [h1, h2] := by rw [hcontent]; rfl
            have hrow : row ∈ rest2 := by
              have hmem0 : row ∈ content.drop r := by rw [← hrows]; simp
              have hdrop : content.drop r = (content.drop 2).drop (r - 2) := by
                rw [List.drop_drop]
                congr 1
                omega
              have : row ∈ (content.drop 2).drop (r - 2) := hdrop ▸ hmem0
              have hsub := List.drop_subset (l := content.drop 2) (n := r - 2)
              have : row ∈ content.drop 2 := hsub this
              rw [hcontent] at this
              simpa using this
            right
            refine ⟨h1, h2, rest2, row, [], ?_, hrow, ?_, ?_⟩
            · rw [← hcontent]; exact hB
            · rw [htake]; rfl
            · intro tl htl; simp at htl
        · have hstep : tableRowsLoop px AVAILABLE_HEIGHT (content.take 2)
              (row :: rest) r s =
              tableRowsLoop px AVAILABLE_HEIGHT (content.take 2) rest (r + 1)
                ⟨s.pages ++ [(s.cur, s.used)], [(Src.orig, row)], 0 + px⟩ := by
            show tableRowsLoop px AVAILABLE_HEIGHT (content.take 2) rest (r + 1) _ =
              tableRowsLoop px AVAILABLE_HEIGHT (content.take 2) rest (r + 1) _
            congr 1
            rw [if_pos hc, if_neg hhd]
            rfl
          rw [hstep]
          refine ih (r + 1) _ hrest ⟨?_, ?_⟩
          · intro pg hpg
            rcases List.mem_append.mp hpg with hpg | hpg
            · exact hs.1 pg hpg
            · rw [List.mem_singleton.mp hpg]
              exact hs.2
          · have := pageOk_append (pageOk_nil BL) (L := [(Src.orig, row)])
              (by intro tl htl; rw [List.mem_singleton.mp htl]; simp)
            simpa using this
      · have hstep : tableRowsLoop px AVAILABLE_HEIGHT (content.take 2)
            (row :: rest) r s =
            tableRowsLoop px AVAILABLE_HEIGHT (content.take 2) rest (r + 1)
              ⟨s.pages, s.cur ++ [(Src.orig, row)], s.used + px⟩ := by
          show tableRowsLoop px AVAILABLE_HEIGHT (content.take 2) rest (r + 1) _ =
            tableRowsLoop px AVAILABLE_HEIGHT (content.take 2) rest (r + 1) _
          congr 1
          simp [hc]
        rw [hstep]
        exact ih (r + 1) _ hrest ⟨hs.1, pageOk_append hs.2
          (by intro tl htl; rw [List.mem_singleton.mp htl]; simp)⟩

theorem procTable_hdrOk {px : ℚ} {BL : List Block} {content : List Line} {s : PState}
    (hB : Block.mk BKind.table content ∈ BL) (hs : StateHdrOk BL s) :
    StateHdrOk BL (procTable px AVAILABLE_HEIGHT content s) := by
  rw [procTable]
  by_cases hfit : s.used + (content.length : ℚ) * px ≤ AVAILABLE_HEIGHT
  · rw [if_pos hfit]
    by_cases hne : 0 < s.cur.length
    · rw [if_pos hne]
      refine ⟨hs.1, ?_⟩
      have h1 := pageOk_append hs.2 (L := [(Src.spacer, [])])
        (by intro tl htl; rw [List.mem_singleton.mp htl]; simp)
      have h2 := pageOk_append h1 (L := content.map (fun l => (Src.orig, l)))
        (by intro tl htl; obtain ⟨x, _, hx⟩ := List.mem_map.mp htl; rw [← hx]; simp)
      simpa using h2
    · rw [if_neg hne]
      refine ⟨hs.1, ?_⟩
      exact pageOk_append hs.2 (L := content.map (fun l => (Src.orig, l)))
        (by intro tl htl; obtain ⟨x, _, hx⟩ := List.mem_map.mp htl; rw [← hx]; simp)
  · rw [if_neg hfit]
    by_cases hsp : 0 < s.cur.length ∧ 0 < s.used
    · rw [if_pos hsp]
      refine tableRowsLoop_hdrOk hB content 0 _ rfl ⟨hs.1, ?_⟩
      exact pageOk_append hs.2 (L := [(Src.spacer, [])])
        (by intro tl htl; rw [List.mem_singleton.mp htl]; simp)
    · rw [if_neg hsp]
      exact tableRowsLoop_hdrOk hB content 0 s rfl hs

theorem procBlock_hdrOk {px : ℚ} (m : Option ℤ) {BL : List Block} {s : PState}
    {b : Block} (hb : b ∈ BL) (hs : StateHdrOk BL s) :
    StateHdrOk BL (procBlock px AVAILABLE_HEIGHT m s b) := by
  obtain ⟨k, c⟩ := b
  cases k with
  | table => exact procTable_hdrOk hb hs
  | hr => exact stateHdrOk_placeUnit _ _ (by simp) hs
  | text =>
      rw [procBlock]
      simp only [procText]
      by_cases hh : isHeadingLine (c.headD [])
      · rw [if_pos hh]
        exact stateHdrOk_placeUnit _ _ (by simp) hs
      · rw [if_neg hh]
        exact stateHdrOk_packFold px AVAILABLE_HEIGHT _ hs

theorem processBlocks_hdrOk {px : ℚ} (m : Option ℤ) {BL : List Block}
    (blocks : List Block) {s : PState} (hsub : ∀ b ∈ blocks, b ∈ BL)
    (hs : StateHdrOk BL s) :
    StateHdrOk BL (processBlocks px AVAILABLE_HEIGHT m blocks s) := by
  induction blocks generalizing s with
  | nil => exact hs
  | cons b bs ih =>
      have hstep : processBlocks px AVAILABLE_HEIGHT m (b :: bs) s =
          processBlocks px AVAILABLE_HEIGHT m bs (procBlock px AVAILABLE_HEIGHT m s b) := rfl
      rw [hstep]
      exact ih (fun x hx => hsub x (List.mem_cons_of_mem b hx))
        (procBlock_hdrOk m (hsub b (List.mem_cons_self b bs)) hs)

theorem paginatePagesH_hdrOk (text : List Char) (f l : ℚ) :
    ∀ pg ∈ paginatePagesH text f l,
      PageOk (toBlocks (splitOnChar '\n' text)) pg.1 := by
  intro pg hpg
  have h1 := @processBlocks_hdrOk (f * l) (charsPerLine f)
    (toBlocks (splitOnChar '\n' text)) (toBlocks (splitOnChar '\n' text))
    ⟨[], [], 0⟩ (fun b hb => hb)
    ⟨by intro pg2 hpg2; simp at hpg2, pageOk_nil _⟩
  rw [paginatePagesH] at hpg
  simp only [sealFinal] at hpg
  by_cases hcur : 0 < (processBlocks (f * l) AVAILABLE_HEIGHT (charsPerLine f)
      (toBlocks (splitOnChar '\n' text)) ⟨[], [], 0⟩).cur.length
  · rw [if_pos hcur] at hpg
    rcases List.mem_append.mp hpg with hpg | hpg
    · exact h1.1 pg hpg
    · rw [List.mem_singleton.mp hpg]
      exact h1.2
  · rw [if_neg hcur] at hpg
    exact h1.1 pg hpg

/-! ### The plain-text pipeline -/

theorem procText_plain {px avail : ℚ} {m : Option ℤ} {line : Line} {s : PState}
    (hh : isHeadingLine line = false) :
    procText px avail m line s = packFold px avail (wrapText line m) s := by
  rw [procText, if_neg (by simp [hh])]
  rfl

theorem processBlocks_textBlocks (px avail : ℚ) (m : Option ℤ) :
    ∀ (lines : List Line), (∀ l ∈ lines, isHeadingLine l = false) → ∀ s,
      processBlocks px avail m (lines.map (fun l => Block.mk BKind.text [l])) s =
        packFold px avail (lines.flatMap (fun l => wrapText l m)) s := by
  intro lines
  induction lines with
  | nil => intro _ s; rfl
  | cons l ls ih =>
      intro h s
      have hstep : processBlocks px avail m
          ((l :: ls).map (fun l => Block.mk BKind.text [l])) s =
          processBlocks px avail m (ls.map (fun l => Block.mk BKind.text [l]))
            (procBlock px avail m s (Block.mk BKind.text [l])) := rfl
      rw [hstep, ih (fun x hx => h x (List.mem_cons_of_mem l hx))]
      have hproc : procBlock px avail m s (Block.mk BKind.text [l]) =
          packFold px avail (wrapText l m) s :=
        procText_plain (h l (List.mem_cons_self l ls))
      rw [hproc, List.flatMap_cons]
      show List.foldl (packStep px avail) (List.foldl (packStep px avail) s (wrapText l m))
          (ls.flatMap fun l => wrapText l m) =
        List.foldl (packStep px avail) s (wrapText l m ++ ls.flatMap fun l => wrapText l m)
      rw [List.foldl_append]

theorem packFold_pages_extend (px avail : ℚ) (F : List Line) (s : PState) :
    ∃ t, (packFold px avail F s).pages = s.pages ++ t := by
  induction F generalizing s with
  | nil => exact ⟨[], by simp [packFold]⟩
  | cons v F ih =>
      have hstep : packFold px avail (v :: F) s =
          packFold px avail F (packStep px avail s v) := rfl
      rw [hstep]
      obtain ⟨t, ht⟩ := ih (packStep px avail s v)
      by_cases hc : avail < s.used + px
      · have : (packStep px avail s v).pages = s.pages ++ [(s.cur, s.used)] := by
          simp [packStep, placeUnit, hc, pushPage]
        exact ⟨(s.cur, s.used) :: t, by rw [ht, this]; simp⟩
      · have : (packStep px avail s v).pages = s.pages := by
          simp [packStep, placeUnit, hc]
        exact ⟨t, by rw [ht, this]⟩

theorem packFold_cur_ne_nil (px avail : ℚ) :
    ∀ (F : List Line), F ≠ [] → ∀ s : PState,
      (packFold px avail F s).cur ≠ [] := by
  intro F
  induction F with
  | nil => intro h; exact absurd rfl h
  | cons v F ih =>
      intro _ s
      have hstep : packFold px avail (v :: F) s =
          packFold px avail F (packStep px avail s v) := rfl
      rw [hstep]
      by_cases hF : F = []
      · subst hF
        simp only [packFold, List.foldl_nil]
        by_cases hc : avail < s.used + px <;>
          simp [packStep, placeUnit, hc, pushPage]
      · exact ih hF (packStep px avail s v)

theorem packFold_no_seal {px avail : ℚ} :
    ∀ {F : List Line} {s : PState},
      (packFold px avail F s).pages = s.pages →
      packFold px avail F s =
        ⟨s.pages, s.cur ++ F.map (fun v => (Src.orig, v)),
          s.used + (F.length : ℚ) * px⟩ := by
  intro F
  induction F with
  | nil =>
      intro s _
      simp [packFold]
  | cons v F ih =>
      intro s h
      have hstep : packFold px avail (v :: F) s =
          packFold px avail F (packStep px avail s v) := rfl
      rw [hstep] at h ⊢
      by_cases hc : avail < s.used + px
      · exfalso
        have h1 : (packStep px avail s v).pages = s.pages ++ [(s.cur, s.used)] := by
          simp [packStep, placeUnit, hc, pushPage]
        obtain ⟨t, ht⟩ := packFold_pages_extend px avail F (packStep px avail s v)
        rw [ht, h1] at h
        have := congrArg List.length h
        simp at this
      · have h1 : packStep px avail s v =
            ⟨s.pages, s.cur ++ [(Src.orig, v)], s.used + px⟩ := by
          simp [packStep, placeUnit, hc]
        rw [h1] at h ⊢
        rw [ih h]
        congr 1
        · simp
        · simp only [List.length_cons]
          push_cast
          ring

theorem sealFinal_singleton {s : PState} {pg : List (Src × Line) × ℚ}
    (hcur : s.cur ≠ []) (h : sealFinal s = [pg]) :
    s.pages = [] ∧ pg = (s.cur, s.used) := by
  have hlen : 0 < s.cur.length := List.length_pos.mpr hcur
  rw [sealFinal, if_pos hlen] at h
  cases hp : s.pages with
  | nil =>
      rw [hp] at h
      simp at h
      exact ⟨rfl, h.symm⟩
  | cons a as =>
      rw [hp] at h
      exfalso
      have hlen2 := congrArg List.length h
      simp only [List.length_append, List.length_cons, List.length_singleton] at hlen2
      omega

/-! ### Characters of wrapped lines -/

theorem splitOnChar_chars (c : Char) (s : List Char) :
    ∀ p ∈ splitOnChar c s, ∀ x ∈ p, x ∈ s := by
  induction s with
  | nil =>
      intro p hp
      simp [splitOnChar] at hp
      simp [hp]
  | cons a as ih =>
      intro p hp
      obtain ⟨q, qs, hqs⟩ := splitOnChar_exists_cons c as
      by_cases h : a = c
      · subst h
        rw [splitOnChar_cons_of_eq] at hp
        rcases List.mem_cons.mp hp with hp | hp
        · simp [hp]
        · intro x hx
          exact List.mem_cons_of_mem a (ih p hp x hx)
      · rw [splitOnChar_cons_of_ne h, hqs] at hp
        simp only [List.headD_cons, List.tail_cons, List.mem_cons] at hp
        rcases hp with hp | hp
        · subst hp
          intro x hx
          rcases List.mem_cons.mp hx with hx | hx
          · simp [hx]
          · exact List.mem_cons_of_mem a (ih q (by simp [hqs]) x hx)
        · intro x hx
          exact List.mem_cons_of_mem a (ih p (by simp [hqs, hp]) x hx)

theorem wrapLoop_chars {P : Char → Prop} {m : Option ℤ} (hsp : P ' ') :
    ∀ (ws : List Line) (cur : Line), (∀ c ∈ cur, P c) → (∀ w ∈ ws, ∀ c ∈ w, P c) →
      ∀ v ∈ wrapLoop m cur ws, ∀ c ∈ v, P c := by
  intro ws
  induction ws with
  | nil =>
      intro cur hcur _ v hv
      simp only [wrapLoop, List.mem_singleton] at hv
      exact hv ▸ hcur
  | cons w ws2 ih =>
      intro cur hcur hws v hv
      have hstep : wrapLoop m cur (w :: ws2) =
          if leCap (cur.length + 1 + w.length) m then
            wrapLoop m (cur ++ ' ' :: w) ws2
          else cur :: wrapLoop m w ws2 := rfl
      rw [hstep] at hv
      by_cases h : leCap (cur.length + 1 + w.length) m
      · rw [if_pos h] at hv
        refine ih (cur ++ ' ' :: w) ?_
          (fun x hx => hws x (List.mem_cons_of_mem w hx)) v hv
        intro c hc
        rcases List.mem_append.mp hc with hc | hc
        · exact hcur c hc
        · rcases List.mem_cons.mp hc with hc | hc
          · exact hc ▸ hsp
          · exact hws w (List.mem_cons_self w ws2) c hc
      · rw [if_neg h] at hv
        rcases List.mem_cons.mp hv with hv | hv
        · exact hv ▸ hcur
        · exact ih w (hws w (List.mem_cons_self w ws2))
            (fun x hx => hws x (List.mem_cons_of_mem w hx)) v hv

theorem wrapText_chars {line : Line} {m : Option ℤ} {P : Char → Prop} (hsp : P ' ')
    (hline : ∀ c ∈ line, P c) :
    ∀ v ∈ wrapText line m, ∀ c ∈ v, P c := by
  intro v hv
  by_cases h : leCap line.length m
  · simp only [wrapText, h, if_true, List.mem_singleton] at hv
    exact hv ▸ hline
  · obtain ⟨q, qs, hqs⟩ := splitOnChar_exists_cons ' ' line
    have hchars := splitOnChar_chars ' ' line
    rw [hqs] at hchars
    simp only [wrapText, hqs, List.headD_cons, List.tail_cons] at hv
    rw [if_neg h] at hv
    exact wrapLoop_chars hsp qs q
      (fun c hc => hline c (hchars q (List.mem_cons_self q qs) c hc))
      (fun w hw c hc => hline c (hchars w (List.mem_cons_of_mem q hw) c hc)) v hv

theorem mem_origOfPage {pls : List (Src × Line)} {x : Line} (h : x ∈ origOfPage pls) :
    ∃ tl ∈ pls, tl.1 = Src.orig ∧ tl.2 = x := by
  simp only [origOfPage] at h
  obtain ⟨tl, htl, hx⟩ := List.mem_filterMap.mp h
  by_cases ht : tl.1 = Src.orig
  · refine ⟨tl, htl, ht, ?_⟩
    simpa [ht] using hx
  · simp [ht] at hx

/-! ### Page counting for the plain-text pipeline -/

theorem le_pageCapacity_iff {px : ℚ} (hpx : 0 < px) (k : ℕ) :
    k ≤ pageCapacity px ↔ (k : ℚ) * px ≤ AVAILABLE_HEIGHT := by
  rw [pageCapacity]
  have h0 : (0 : ℤ) ≤ ⌊AVAILABLE_HEIGHT / px⌋ :=
    Int.floor_nonneg.mpr (div_nonneg (le_of_lt AVAILABLE_HEIGHT_pos) (le_of_lt hpx))
  rw [Int.le_toNat h0, Int.le_floor]
  push_cast
  rw [le_div_iff₀ hpx]

theorem packFold_count {px : ℚ} (hpx : 0 < px) :
    ∀ (F : List Line) (k : ℕ) (pages0 : List (List (Src × Line) × ℚ))
      (cur0 : List (Src × Line)), 1 ≤ k → k ≤ pageCapacity px → cur0 ≠ [] →
      (sealFinal (packFold px AVAILABLE_HEIGHT F ⟨pages0, cur0, (k : ℚ) * px⟩)).length
        = pages0.length + (k + F.length - 1) / pageCapacity px + 1 := by
  intro F
  induction F with
  | nil =>
      intro k pages0 cur0 hk1 hkm hcur
      have hm1 : 1 ≤ pageCapacity px := le_trans hk1 hkm
      simp only [packFold, List.foldl_nil, sealFinal,
        if_pos (List.length_pos.mpr hcur)]
      rw [Nat.div_eq_of_lt (by simp only [List.length_nil]; omega)]
      simp
  | cons v F ih =>
      intro k pages0 cur0 hk1 hkm hcur
      by_cases hc : AVAILABLE_HEIGHT < (k : ℚ) * px + px
      · have hk1m : ¬(k + 1 ≤ pageCapacity px) := by
          rw [le_pageCapacity_iff hpx]
          push_cast
          intro hcon
          nlinarith
        have hkeq : k = pageCapacity px := by omega
        have hstep : packFold px AVAILABLE_HEIGHT (v :: F)
            ⟨pages0, cur0, (k : ℚ) * px⟩ =
            packFold px AVAILABLE_HEIGHT F
              ⟨pages0 ++ [(cur0, (k : ℚ) * px)], [(Src.orig, v)],
                ((1 : ℕ) : ℚ) * px⟩ := by
          show packFold px AVAILABLE_HEIGHT F _ = packFold px AVAILABLE_HEIGHT F _
          congr 1
          simp [packStep, placeUnit, hc, pushPage]
        rw [hstep, ih 1 _ _ le_rfl (by omega) (by simp)]
        have harg : 1 + F.length - 1 = F.length := by omega
        have harg2 : k + (v :: F).length - 1 = pageCapacity px + F.length := by
          simp only [List.length_cons]
          omega
        rw [harg, harg2]
        have hm1 : 0 < pageCapacity px := by omega
        have hdiv : (pageCapacity px + F.length) / pageCapacity px =
            F.length / pageCapacity px + 1 := by
          rw [Nat.add_comm, Nat.add_div_right _ hm1]
        rw [hdiv]
        simp only [List.length_append, List.length_singleton]
        omega
      · have hk1m : k + 1 ≤ pageCapacity px := by
          rw [le_pageCapacity_iff hpx]
          push_cast
          linarith [le_of_not_lt hc]
        have hstep : packFold px AVAILABLE_HEIGHT (v :: F)
            ⟨pages0, cur0, (k : ℚ) * px⟩ =
            packFold px AVAILABLE_HEIGHT F
              ⟨pages0, cur0 ++ [(Src.orig, v)], ((k + 1 : ℕ) : ℚ) * px⟩ := by
          show packFold px AVAILABLE_HEIGHT F _ = packFold px AVAILABLE_HEIGHT F _
          congr 1
          simp [packStep, placeUnit, hc]
          ring
        rw [hstep, ih (k + 1) _ _ (by omega) hk1m (by simp)]
        have harg : k + 1 + F.length - 1 = k + (v :: F).length - 1 := by
          simp only [List.length_cons]
          omega
        rw [harg]

theorem packFold_count_overflow {px : ℚ} (hpx : 0 < px)
    (hover : AVAILABLE_HEIGHT < px) :
    ∀ (F : List Line) (pages0 : List (List (Src × Line) × ℚ))
      (cur0 : List (Src × Line)), cur0 ≠ [] →
      (sealFinal (packFold px AVAILABLE_HEIGHT F ⟨pages0, cur0, px⟩)).length
        = pages0.length + F.length + 1 := by
  intro F
  induction F with
  | nil =>
      intro pages0 cur0 hcur
      simp only [packFold, List.foldl_nil, sealFinal,
        if_pos (List.length_pos.mpr hcur)]
      simp
  | cons v F ih =>
      intro pages0 cur0 hcur
      have hc : AVAILABLE_HEIGHT < px + px := by linarith
      have hstep : packFold px AVAILABLE_HEIGHT (v :: F) ⟨pages0, cur0, px⟩ =
          packFold px AVAILABLE_HEIGHT F
            ⟨pages0 ++ [(cur0, px)], [(Src.orig, v)], px⟩ := by
        show packFold px AVAILABLE_HEIGHT F _ = packFold px AVAILABLE_HEIGHT F _
        congr 1
        simp [packStep, placeUnit, hc, pushPage]
      rw [hstep, ih _ _ (by simp)]
      simp only [List.length_append, List.length_cons, List.length_nil,
        List.length_singleton]
      omega

theorem packFold_formula {px : ℚ} (hpx : 0 < px) (F : List Line) (hF : F ≠ []) :
    (sealFinal (packFold px AVAILABLE_HEIGHT F ⟨[], [], 0⟩)).length
      = pageCountFormula F.length (pageCapacity px) := by
  cases F with
  | nil => exact absurd rfl hF
  | cons v F =>
      by_cases hc : AVAILABLE_HEIGHT < 0 + px
      · have hover : AVAILABLE_HEIGHT < px := by linarith
        have hm : pageCapacity px = 0 := by
          by_contra hne
          have h1 : 1 ≤ pageCapacity px := Nat.pos_of_ne_zero hne
          rw [le_pageCapacity_iff hpx] at h1
          push_cast at h1
          linarith
        have hstep : packFold px AVAILABLE_HEIGHT (v :: F) ⟨[], [], 0⟩ =
            packFold px AVAILABLE_HEIGHT F ⟨[([], 0)], [(Src.orig, v)], px⟩ := by
          show packFold px AVAILABLE_HEIGHT F _ = packFold px AVAILABLE_HEIGHT F _
          congr 1
          simp [packStep, placeUnit, hc, hover, pushPage]
        rw [hstep, packFold_count_overflow hpx hover F _ _ (by simp)]
        simp [pageCountFormula, hm]
        omega
      · have h1m : 1 ≤ pageCapacity px := by
          rw [le_pageCapacity_iff hpx]
          push_cast
          linarith [le_of_not_lt hc]
        have hc2 : ¬AVAILABLE_HEIGHT < px := by
          rw [zero_add] at hc
          exact hc
        have hstep : packFold px AVAILABLE_HEIGHT (v :: F) ⟨[], [], 0⟩ =
            packFold px AVAILABLE_HEIGHT F
              ⟨[], [(Src.orig, v)], ((1 : ℕ) : ℚ) * px⟩ := by
          show packFold px AVAILABLE_HEIGHT F _ = packFold px AVAILABLE_HEIGHT F _
          congr 1
          simp [packStep, placeUnit, hc, hc2]
        rw [hstep, packFold_count hpx F 1 [] _ le_rfl h1m (by simp)]
        rw [pageCountFormula, if_neg (by omega)]
        have harg : 1 + F.length - 1 = (v :: F).length - 1 := by
          simp only [List.length_cons]
          omega
        rw [harg]
        simp

theorem pageCountFormula_mono {n m1 m2 : ℕ} (h : m2 ≤ m1) :
    pageCountFormula n m1 ≤ pageCountFormula n m2 := by
  rw [pageCountFormula, pageCountFormula]
  by_cases h2 : m2 = 0
  · rw [if_pos h2]
    by_cases h1 : m1 = 0
    · rw [if_pos h1]
    · rw [if_neg h1]
      have := Nat.div_le_self (n - 1) m1
      omega
  · have h1 : m1 ≠ 0 := by omega
    rw [if_neg h1, if_neg h2]
    exact Nat.add_le_add_right
      (Nat.div_le_div_left h (Nat.pos_of_ne_zero h2)) 1

theorem pageCapacity_anti {px1 px2 : ℚ} (h1 : 0 < px1) (hle : px1 ≤ px2) :
    pageCapacity px2 ≤ pageCapacity px1 := by
  have h2 : 0 < px2 := lt_of_lt_of_le h1 hle
  rw [le_pageCapacity_iff h1]
  have hcap := (le_pageCapacity_iff h2 (pageCapacity px2)).mp le_rfl
  calc (pageCapacity px2 : ℚ) * px1
      ≤ (pageCapacity px2 : ℚ) * px2 := by
        apply mul_le_mul_of_nonneg_left hle
        positivity
    _ ≤ AVAILABLE_HEIGHT := hcap

theorem leCap_charsPerLine_anti {f1 f2 : ℚ} (h1 : 0 < f1) (hle : f1 ≤ f2) {n : ℕ}
    (h : leCap n (charsPerLine f2) = true) : leCap n (charsPerLine f1) = true := by
  have h2 : 0 < f2 := lt_of_lt_of_le h1 hle
  have ha1 : ¬(f1 * (45 / 100) = 0) := by positivity
  have ha2 : ¬(f2 * (45 / 100) = 0) := by positivity
  rw [charsPerLine] at h ⊢
  rw [if_neg ha2] at h
  rw [if_neg ha1]
  simp only [leCap, decide_eq_true_eq] at h ⊢
  refine le_trans h (Int.floor_le_floor ?_)
  apply div_le_div_of_nonneg_left (by norm_num) (by positivity)
  apply mul_le_mul_of_nonneg_right hle
  norm_num

/-! ### Non-emptiness of output -/

theorem placeUnit_cur_ne_nil (avail h : ℚ) (t : Src × Line) (s : PState) :
    (placeUnit avail h t s).cur ≠ [] := by
  by_cases hc : avail < s.used + h <;> simp [placeUnit, hc, pushPage]

theorem tableRowsLoop_cur_ne_nil (px : ℚ) (headers : List Line) :
    ∀ (rows : List Line), rows ≠ [] → ∀ (r : ℕ) (s : PState),
      (tableRowsLoop px AVAILABLE_HEIGHT headers rows r s).cur ≠ [] := by
  intro rows
  induction rows with
  | nil => intro h; exact absurd rfl h
  | cons row rest ih =>
      intro _ r s
      by_cases hrest : rest = []
      · subst hrest
        by_cases hc : AVAILABLE_HEIGHT < s.used + px
        · by_cases hhd : 2 ≤ r ∧ headers.length = 2 <;>
            simp [tableRowsLoop, hc, hhd, pushPage]
        · simp [tableRowsLoop, hc]
      · exact ih hrest (r + 1) _

theorem toBlocks_content_ne_nil {ls : List Line} :
    ∀ b ∈ toBlocks ls, b.content ≠ [] := by
  intro b hb
  obtain ⟨k, c⟩ := b
  have hs := toBlocks_shape ls ⟨k, c⟩ hb
  cases k with
  | table => exact (hs.1 rfl).1
  | hr =>
      obtain ⟨l, hl, _⟩ := hs.2.1 rfl
      simp only at hl
      simp [hl]
  | text =>
      obtain ⟨l, hl, _⟩ := hs.2.2 rfl
      simp only at hl
      simp [hl]

theorem procBlock_cur_ne_nil {px : ℚ} (m : Option ℤ) {b : Block}
    (hb : b.content ≠ []) (s : PState) :
    (procBlock px AVAILABLE_HEIGHT m s b).cur ≠ [] := by
  obtain ⟨k, c⟩ := b
  cases k with
  | table =>
      show (procTable px AVAILABLE_HEIGHT c s).cur ≠ []
      rw [procTable]
      by_cases hfit : s.used + (c.length : ℚ) * px ≤ AVAILABLE_HEIGHT
      · rw [if_pos hfit]
        by_cases hne : 0 < s.cur.length <;> simp [hne, hb]
      · rw [if_neg hfit]
        by_cases hsp : 0 < s.cur.length ∧ 0 < s.used
        · rw [if_pos hsp]
          exact tableRowsLoop_cur_ne_nil px _ c hb 0 _
        · rw [if_neg hsp]
          exact tableRowsLoop_cur_ne_nil px _ c hb 0 _
  | hr => exact placeUnit_cur_ne_nil _ _ _ s
  | text =>
      show (procText px AVAILABLE_HEIGHT m (c.headD []) s).cur ≠ []
      by_cases hh : isHeadingLine (c.headD [])
      · rw [procText, if_pos hh]
        exact placeUnit_cur_ne_nil _ _ _ s
      · rw [procText, if_neg hh]
        exact packFold_cur_ne_nil px AVAILABLE_HEIGHT _ (wrapText_ne_nil _ _) s

theorem processBlocks_cur_ne_nil {px : ℚ} (m : Option ℤ) :
    ∀ (blocks : List Block), blocks ≠ [] → (∀ b ∈ blocks, b.content ≠ []) →
      ∀ s : PState, (processBlocks px AVAILABLE_HEIGHT m blocks s).cur ≠ [] := by
  intro blocks
  induction blocks with
  | nil => intro h; exact absurd rfl h
  | cons b bs ih =>
      intro _ hcontent s
      have hstep : processBlocks px AVAILABLE_HEIGHT m (b :: bs) s =
          processBlocks px AVAILABLE_HEIGHT m bs (procBlock px AVAILABLE_HEIGHT m s b) := rfl
      rw [hstep]
      by_cases hbs : bs = []
      · subst hbs
        exact procBlock_cur_ne_nil m (hcontent b (by simp)) s
      · exact ih hbs (fun x hx => hcontent x (List.mem_cons_of_mem b hx)) _

theorem toBlocks_ne_nil {l : Line} {ls : List Line} : toBlocks (l :: ls) ≠ [] := by
  by_cases ht : isTableLine l
  · cases hb : toBlocks ls with
    | nil => simp [toBlocks, ht, hb]
    | cons b bs =>
        obtain ⟨k, c⟩ := b
        cases k <;> simp [toBlocks, ht, hb]
  · by_cases hh : isHrLine l <;> simp [toBlocks, ht, hh]

theorem paginatePagesH_ne_nil (text : List Char) (f l : ℚ) (_htext : text ≠ []) :
    paginatePagesH text f l ≠ [] := by
  rw [paginatePagesH]
  obtain ⟨q, qs, hqs⟩ := splitOnChar_exists_cons '\n' text
  have hblocks : toBlocks (splitOnChar '\n' text) ≠ [] := by
    rw [hqs]
    exact toBlocks_ne_nil
  have hcur := @processBlocks_cur_ne_nil (f * l) (charsPerLine f)
    (toBlocks (splitOnChar '\n' text)) hblocks
    (fun b hb => toBlocks_content_ne_nil b hb) ⟨[], [], 0⟩
  rw [sealFinal, if_pos (List.length_pos.mpr hcur)]
  simp

/-! ### Block emissions under no wrapping -/

theorem flatMap_congr_mem {α β : Type} {l : List α} {f g : α → List β}
    (h : ∀ a ∈ l, f a = g a) : l.flatMap f = l.flatMap g := by
  induction l with
  | nil => rfl
  | cons a as ih =>
      rw [List.flatMap_cons, List.flatMap_cons, h a (List.mem_cons_self a as),
        ih (fun x hx => h x (List.mem_cons_of_mem a hx))]

theorem flatMap_blockEmits_eq {ls : List Line} {cap : Option ℤ}
    (h : ∀ l ∈ ls, leCap l.length cap = true) :
    (toBlocks ls).flatMap (blockEmits cap) = ls := by
  have hcongr : ∀ b ∈ toBlocks ls, blockEmits cap b = b.content := by
    intro b hb
    obtain ⟨k, c⟩ := b
    have hs := toBlocks_shape ls ⟨k, c⟩ hb
    cases k with
    | table => rfl
    | hr =>
        obtain ⟨l, hl, _⟩ := hs.2.1 rfl
        simp only at hl
        rw [blockEmits]
        simp [hl]
    | text =>
        obtain ⟨l, hl, _⟩ := hs.2.2 rfl
        simp only at hl
        rw [blockEmits]
        simp only [hl, List.headD_cons]
        by_cases hhead : isHeadingLine l
        · rw [if_pos hhead]
        · rw [if_neg hhead]
          have hlin : l ∈ ls := by
            rw [← toBlocks_flatMap_content ls]
            exact List.mem_flatMap.mpr ⟨⟨BKind.text, c⟩, hb, by simp [hl]⟩
          exact wrapText_of_leCap (h l hlin)
  rw [flatMap_congr_mem hcongr, toBlocks_flatMap_content]

theorem mem_emits_of_not_plain {ls : List Line} {l : Line} (cap : Option ℤ)
    (hmem : l ∈ ls) (hnp : plainLine l = false) :
    l ∈ (toBlocks ls).flatMap (blockEmits cap) := by
  obtain ⟨b, hb, hbc⟩ := exists_block_of_mem hmem
  obtain ⟨k, c⟩ := b
  have hs := toBlocks_shape ls ⟨k, c⟩ hb
  cases k with
  | table =>
      refine List.mem_flatMap.mpr ⟨⟨BKind.table, c⟩, hb, ?_⟩
      exact hbc
  | hr =>
      obtain ⟨l2, hl2, _, hl2hr⟩ := hs.2.1 rfl
      simp only at hl2
      rw [hl2] at hbc
      have hleq : l = l2 := by simpa using hbc
      subst hleq
      refine List.mem_flatMap.mpr ⟨⟨BKind.hr, c⟩, hb, ?_⟩
      rw [blockEmits]
      simp [hl2]
  | text =>
      obtain ⟨l2, hl2, hl2t, hl2hr⟩ := hs.2.2 rfl
      simp only at hl2
      rw [hl2] at hbc
      have hleq : l = l2 := by simpa using hbc
      subst hleq
      have hhead : isHeadingLine l = true := by
        rw [plainLine] at hnp
        simp only [hl2t, hl2hr] at hnp
        simp at hnp
        exact hnp
      refine List.mem_flatMap.mpr ⟨⟨BKind.text, c⟩, hb, ?_⟩
      rw [blockEmits]
      simp [hl2, hhead]

/-! ### Bridges between the paginator and the plain-text pipeline -/

theorem paginateText_eq_map {text : List Char} (f l : ℚ) (htext : text ≠ []) :
    paginateText text f l = (paginatePagesH text f l).map pageText := by
  simp only [paginateText]
  rw [if_neg htext, if_neg (paginatePagesH_ne_nil text f l htext)]

theorem paginateText_length_pos (text : List Char) (f l : ℚ) :
    1 ≤ (paginateText text f l).length := by
  by_cases htext : text = []
  · subst htext
    simp [paginateText]
  · rw [paginateText_eq_map f l htext, List.length_map]
    exact List.length_pos.mpr (paginatePagesH_ne_nil text f l htext)

theorem plainLine_iff {l : Line} : plainLine l = true ↔
    isTableLine l = false ∧ isHrLine l = false ∧ isHeadingLine l = false := by
  simp [plainLine, and_assoc]

theorem paginatePagesH_plain {text : List Char} (f l : ℚ)
    (hplain : ∀ ln ∈ splitOnChar '\n' text,
      isTableLine ln = false ∧ isHrLine ln = false)
    (hhead : ∀ ln ∈ splitOnChar '\n' text, isHeadingLine ln = false) :
    paginatePagesH text f l =
      sealFinal (packFold (f * l) AVAILABLE_HEIGHT
        ((splitOnChar '\n' text).flatMap
          (fun ln => wrapText ln (charsPerLine f))) ⟨[], [], 0⟩) := by
  simp only [paginatePagesH]
  rw [toBlocks_of_plain hplain, processBlocks_textBlocks _ _ _ _ hhead]

theorem flatMap_id_singleton {α : Type} (ls : List α) :
    ls.flatMap (fun a => [a]) = ls := by
  induction ls with
  | nil => rfl
  | cons q qs ih => rw [List.flatMap_cons, ih]; rfl

theorem flatMap_wrapText_id {ls : List Line} {cap : Option ℤ}
    (h : ∀ ln ∈ ls, leCap ln.length cap = true) :
    ls.flatMap (fun ln => wrapText ln cap) = ls := by
  rw [flatMap_congr_mem (fun ln hln => wrapText_of_leCap (h ln hln))]
  exact flatMap_id_singleton ls

theorem flatMap_wrapText_ne_nil {ls : List Line} (hls : ls ≠ []) (cap : Option ℤ) :
    ls.flatMap (fun ln => wrapText ln cap) ≠ [] := by
  cases ls with
  | nil => exact absurd rfl hls
  | cons q qs =>
      rw [List.flatMap_cons]
      intro hc
      exact wrapText_ne_nil q cap (List.append_eq_nil.mp hc).1

/-! ### Greedy wrap-line count is antitone in the capacity -/

theorem wrapLoop_length_anti {m m2 : Option ℤ}
    (hmm : ∀ n, leCap n m2 = true → leCap n m = true) :
    ∀ (ws : List Line) (k : ℕ) (c c2 : Line),
      (k = 0 → c.length ≤ c2.length) →
      (wrapLoop m c ws).length ≤ k + (wrapLoop m2 c2 ws).length := by
  intro ws
  induction ws with
  | nil =>
      intro k c c2 _
      simp [wrapLoop]
  | cons w ws ih =>
      intro k c c2 hk
      have hstep1 : wrapLoop m c (w :: ws) =
          if leCap (c.length + 1 + w.length) m then
            wrapLoop m (c ++ ' ' :: w) ws
          else c :: wrapLoop m w ws := rfl
      have hstep2 : wrapLoop m2 c2 (w :: ws) =
          if leCap (c2.length + 1 + w.length) m2 then
            wrapLoop m2 (c2 ++ ' ' :: w) ws
          else c2 :: wrapLoop m2 w ws := rfl
      by_cases t : leCap (c.length + 1 + w.length) m = true
      · rw [hstep1, if_pos t]
        by_cases t2 : leCap (c2.length + 1 + w.length) m2 = true
        · rw [hstep2, if_pos t2]
          refine ih k _ _ (fun h0 => ?_)
          have := hk h0
          simp only [List.length_append, List.length_cons]
          omega
        · rw [hstep2, if_neg t2, List.length_cons]
          have := ih (k + 1) (c ++ ' ' :: w) w (by omega)
          omega
      · rw [hstep1, if_neg t, List.length_cons]
        by_cases t2 : leCap (c2.length + 1 + w.length) m2 = true
        · cases k with
          | zero =>
              exfalso
              apply t
              refine leCap_mono ?_ (hmm _ t2)
              have := hk rfl
              omega
          | succ k0 =>
              rw [hstep2, if_pos t2]
              have := ih k0 w (c2 ++ ' ' :: w) (fun _ => by
                simp only [List.length_append, List.length_cons]
                omega)
              omega
        · rw [hstep2, if_neg t2, List.length_cons]
          have := ih k w w (fun _ => le_refl _)
          omega

theorem wrapText_length_anti {m m2 : Option ℤ}
    (hmm : ∀ n, leCap n m2 = true → leCap n m = true) (str : Line) :
    (wrapText str m).length ≤ (wrapText str m2).length := by
  by_cases h : leCap str.length m = true
  · have h1 : wrapText str m = [str] := by simp [wrapText, h]
    rw [h1, List.length_singleton]
    exact List.length_pos.mpr (wrapText_ne_nil str m2)
  · have h2 : ¬ leCap str.length m2 = true := fun hq => h (hmm _ hq)
    rw [wrapText, if_neg h, wrapText, if_neg h2]
    show (wrapLoop m ((splitOnChar ' ' str).headD [])
        (splitOnChar ' ' str).tail).length ≤
      (wrapLoop m2 ((splitOnChar ' ' str).headD [])
        (splitOnChar ' ' str).tail).length
    have := wrapLoop_length_anti hmm (splitOnChar ' ' str).tail 0
      ((splitOnChar ' ' str).headD []) ((splitOnChar ' ' str).headD [])
      (fun _ => le_refl _)
    omega

/-! ### Dominance lemmas for the abstract page counter -/

theorem cstep_used_nonneg {avail : ℚ} {st : ℕ × ℚ} {h : ℚ}
    (h0 : 0 ≤ st.2) (hh : 0 ≤ h) : 0 ≤ (cstep avail st h).2 := by
  rw [cstep]
  by_cases hc : avail < st.2 + h
  · rw [if_pos hc]
    exact hh
  · rw [if_neg hc]
    exact add_nonneg h0 hh

theorem cstep_same {avail h : ℚ} {st1 st2 : ℕ × ℚ} (h2 : 0 ≤ st2.2)
    (hD : CDom st1 st2) : CDom (cstep avail st1 h) (cstep avail st2 h) := by
  rw [cstep, cstep]
  rcases hD with hlt | ⟨hp, hu⟩
  · by_cases c1 : avail < st1.2 + h
    · rw [if_pos c1]
      by_cases c2 : avail < st2.2 + h
      · rw [if_pos c2]
        exact Or.inl (by omega)
      · rw [if_neg c2]
        rcases Nat.lt_or_ge (st1.1 + 1) st2.1 with hq | hq
        · exact Or.inl hq
        · have heq : st1.1 + 1 = st2.1 := by omega
          refine Or.inr ⟨heq, ?_⟩
          show h ≤ st2.2 + h
          linarith
    · rw [if_neg c1]
      by_cases c2 : avail < st2.2 + h
      · rw [if_pos c2]
        exact Or.inl (by omega)
      · rw [if_neg c2]
        exact Or.inl hlt
  · by_cases c1 : avail < st1.2 + h
    · have c2 : avail < st2.2 + h :=
        lt_of_lt_of_le c1 (add_le_add_right hu h)
      rw [if_pos c1, if_pos c2]
      exact Or.inr ⟨by omega, le_refl _⟩
    · rw [if_neg c1]
      by_cases c2 : avail < st2.2 + h
      · rw [if_pos c2]
        exact Or.inl (by omega)
      · rw [if_neg c2]
        refine Or.inr ⟨hp, ?_⟩
        show st1.2 + h ≤ st2.2 + h
        linarith

theorem cstep_extra {avail h : ℚ} {st1 st2 : ℕ × ℚ} (hh : 0 ≤ h)
    (hD : CDom st1 st2) : CDom st1 (cstep avail st2 h) := by
  rw [cstep]
  rcases hD with hlt | ⟨hp, hu⟩
  · by_cases c2 : avail < st2.2 + h
    · rw [if_pos c2]
      exact Or.inl (by omega)
    · rw [if_neg c2]
      exact Or.inl hlt
  · by_cases c2 : avail < st2.2 + h
    · rw [if_pos c2]
      exact Or.inl (by omega)
    · rw [if_neg c2]
      refine Or.inr ⟨hp, ?_⟩
      show st1.2 ≤ st2.2 + h
      linarith

theorem cfold_sublist {avail : ℚ} :
    ∀ {H1 H2 : List ℚ}, List.Sublist H1 H2 → (∀ h ∈ H2, 0 ≤ h) →
      ∀ st1 st2 : ℕ × ℚ, 0 ≤ st2.2 → CDom st1 st2 →
        CDom (cfold avail H1 st1) (cfold avail H2 st2) := by
  intro H1 H2 hsub
  induction hsub with
  | slnil =>
      intro _ st1 st2 _ hD
      exact hD
  | cons h hsub ih =>
      intro hnn st1 st2 h2 hD
      have hh : 0 ≤ h := hnn h (List.mem_cons_self h _)
      exact ih (fun x hx => hnn x (List.mem_cons_of_mem h hx)) st1
        (cstep avail st2 h) (cstep_used_nonneg h2 hh) (cstep_extra hh hD)
  | cons₂ h hsub ih =>
      intro hnn st1 st2 h2 hD
      have hh : 0 ≤ h := hnn h (List.mem_cons_self h _)
      exact ih (fun x hx => hnn x (List.mem_cons_of_mem h hx))
        (cstep avail st1 h) (cstep avail st2 h) (cstep_used_nonneg h2 hh)
        (cstep_same h2 hD)

theorem cstep_scale {px1 px2 avail c : ℚ} (hp1 : 0 < px1) (hle : px1 ≤ px2)
    (ha : 0 ≤ avail) {st1 st2 : ℕ × ℚ} (h2 : 0 ≤ st2.2)
    (hD : SDom px1 px2 st1 st2) :
    SDom px1 px2 (cstep avail st1 (c * px1)) (cstep avail st2 (c * px2)) := by
  have hp2 : 0 < px2 := lt_of_lt_of_le hp1 hle
  rw [cstep, cstep]
  rcases hD with hlt | ⟨hp, hu⟩
  · by_cases c1 : avail < st1.2 + c * px1
    · rw [if_pos c1]
      by_cases c2 : avail < st2.2 + c * px2
      · rw [if_pos c2]
        exact Or.inl (by omega)
      · rw [if_neg c2]
        rcases Nat.lt_or_ge (st1.1 + 1) st2.1 with hq | hq
        · exact Or.inl hq
        · refine Or.inr ⟨by omega, ?_⟩
          show c * px1 * px2 ≤ (st2.2 + c * px2) * px1
          nlinarith
    · rw [if_neg c1]
      by_cases c2 : avail < st2.2 + c * px2
      · rw [if_pos c2]
        exact Or.inl (by omega)
      · rw [if_neg c2]
        exact Or.inl hlt
  · by_cases c1 : avail < st1.2 + c * px1
    · have c2 : avail < st2.2 + c * px2 := by
        by_contra hcon
        push_neg at hcon
        have k1 : avail * px2 < (st1.2 + c * px1) * px2 :=
          mul_lt_mul_of_pos_right c1 hp2
        have k2 : (st1.2 + c * px1) * px2 ≤ (st2.2 + c * px2) * px1 := by
          nlinarith
        have k3 : (st2.2 + c * px2) * px1 ≤ avail * px1 :=
          mul_le_mul_of_nonneg_right hcon (le_of_lt hp1)
        have k4 : avail * px1 ≤ avail * px2 :=
          mul_le_mul_of_nonneg_left hle ha
        linarith
      rw [if_pos c1, if_pos c2]
      refine Or.inr ⟨by omega, ?_⟩
      show c * px1 * px2 ≤ c * px2 * px1
      ring_nf
      exact le_refl _
    · rw [if_neg c1]
      by_cases c2 : avail < st2.2 + c * px2
      · rw [if_pos c2]
        exact Or.inl (by omega)
      · rw [if_neg c2]
        refine Or.inr ⟨hp, ?_⟩
        show (st1.2 + c * px1) * px2 ≤ (st2.2 + c * px2) * px1
        nlinarith

theorem cfold_scale {px1 px2 avail : ℚ} (hp1 : 0 < px1) (hle : px1 ≤ px2)
    (ha : 0 ≤ avail) :
    ∀ (C : List ℚ), (∀ c ∈ C, 0 ≤ c) →
      ∀ st1 st2 : ℕ × ℚ, 0 ≤ st2.2 → SDom px1 px2 st1 st2 →
        SDom px1 px2 (cfold avail (C.map (fun c => c * px1)) st1)
          (cfold avail (C.map (fun c => c * px2)) st2) := by
  intro C
  induction C with
  | nil =>
      intro _ st1 st2 _ hD
      exact hD
  | cons c C ih =>
      intro hnn st1 st2 h2 hD
      have hc : 0 ≤ c := hnn c (List.mem_cons_self c C)
      have hp2 : 0 < px2 := lt_of_lt_of_le hp1 hle
      exact ih (fun x hx => hnn x (List.mem_cons_of_mem c hx))
        (cstep avail st1 (c * px1)) (cstep avail st2 (c * px2))
        (cstep_used_nonneg h2 (mul_nonneg hc (le_of_lt hp2)))
        (cstep_scale hp1 hle ha h2 hD)

theorem cdom_fst_le {st1 st2 : ℕ × ℚ} (h : CDom st1 st2) : st1.1 ≤ st2.1 := by
  rcases h with h | ⟨h, _⟩
  · exact le_of_lt h
  · exact le_of_eq h

theorem sdom_fst_le {px1 px2 : ℚ} {st1 st2 : ℕ × ℚ}
    (h : SDom px1 px2 st1 st2) : st1.1 ≤ st2.1 := by
  rcases h with h | ⟨h, _⟩
  · exact le_of_lt h
  · exact le_of_eq h

/-! ### Unit coefficients of table-free documents -/

theorem lineUnits_nonneg (cap : Option ℤ) (l : Line) :
    ∀ c ∈ lineUnits cap l, 0 ≤ c := by
  intro c hc
  rw [lineUnits] at hc
  by_cases h1 : isHrLine l = true
  · rw [if_pos h1] at hc
    rw [List.mem_singleton.mp hc]
    norm_num
  · rw [if_neg h1] at hc
    by_cases h2 : isHeadingLine l = true
    · rw [if_pos h2] at hc
      rw [List.mem_singleton.mp hc]
      norm_num
    · rw [if_neg h2] at hc
      rw [List.eq_of_mem_replicate hc]
      norm_num

theorem docUnits_nonneg (cap : Option ℤ) (ls : List Line) :
    ∀ c ∈ docUnits cap ls, 0 ≤ c := by
  intro c hc
  obtain ⟨l, _, hcl⟩ := List.mem_flatMap.mp hc
  exact lineUnits_nonneg cap l c hcl

theorem lineUnits_sublist {m1 m2 : Option ℤ}
    (hmm : ∀ n, leCap n m2 = true → leCap n m1 = true) (l : Line) :
    List.Sublist (lineUnits m1 l) (lineUnits m2 l) := by
  rw [lineUnits, lineUnits]
  by_cases h1 : isHrLine l = true
  · rw [if_pos h1, if_pos h1]
  · rw [if_neg h1, if_neg h1]
    by_cases h2 : isHeadingLine l = true
    · rw [if_pos h2, if_pos h2]
    · rw [if_neg h2, if_neg h2]
      exact (List.replicate_sublist_replicate (1 : ℚ)).mpr
        (wrapText_length_anti hmm l)

theorem docUnits_sublist {m1 m2 : Option ℤ}
    (hmm : ∀ n, leCap n m2 = true → leCap n m1 = true) :
    ∀ ls : List Line, List.Sublist (docUnits m1 ls) (docUnits m2 ls) := by
  intro ls
  induction ls with
  | nil => exact List.Sublist.refl _
  | cons l ls ih =>
      rw [docUnits, docUnits, List.flatMap_cons, List.flatMap_cons]
      exact List.Sublist.append (lineUnits_sublist hmm l) ih

/-! ### The counting projection of the real loop on table-free input -/

theorem placeUnit_proj (avail h : ℚ) (t : Src × Line) (s : PState) :
    cproj (placeUnit avail h t s) = cstep avail (cproj s) h := by
  by_cases hc : avail < s.used + h
  · simp [placeUnit, cstep, cproj, pushPage, hc]
  · simp [placeUnit, cstep, cproj, pushPage, hc]

theorem foldl_placeUnit_proj (avail h : ℚ) :
    ∀ (F : List Line) (s : PState),
      cproj (F.foldl (fun t v => placeUnit avail h (Src.orig, v) t) s) =
        cfold avail (List.replicate F.length h) (cproj s) := by
  intro F
  induction F with
  | nil => intro s; rfl
  | cons v F ih =>
      intro s
      show cproj (F.foldl (fun t v => placeUnit avail h (Src.orig, v) t)
        (placeUnit avail h (Src.orig, v) s)) = _
      rw [List.length_cons, List.replicate_succ]
      show _ = cfold avail (List.replicate F.length h)
        (cstep avail (cproj s) h)
      rw [← placeUnit_proj avail h (Src.orig, v) s]
      exact ih (placeUnit avail h (Src.orig, v) s)

theorem line_proj (px avail : ℚ) (cap : Option ℤ) (l : Line) (s : PState) :
    cproj (procBlock px avail cap s
        (if isHrLine l then Block.mk BKind.hr [l] else Block.mk BKind.text [l])) =
      cfold avail ((lineUnits cap l).map (fun c => c * px)) (cproj s) := by
  by_cases hhr : isHrLine l = true
  · rw [if_pos hhr, lineUnits, if_pos hhr]
    show cproj (placeUnit avail (getLineHeight px false false true)
        (Src.orig, [l].headD []) s) =
      cstep avail (cproj s) (1 / 2 * px)
    rw [placeUnit_proj]
    have hgl : getLineHeight px false false true = 1 / 2 * px := by
      show px * (1 / 2) = 1 / 2 * px
      ring
    rw [hgl]
  · rw [if_neg hhr, lineUnits, if_neg hhr]
    show cproj (procText px avail cap l s) = _
    rw [procText]
    by_cases hhd : isHeadingLine l = true
    · rw [if_pos hhd, if_pos hhd]
      show cproj (placeUnit avail (getLineHeight px true false false)
          (Src.orig, l) s) =
        cstep avail (cproj s) (3 / 2 * px)
      rw [placeUnit_proj]
      have hgl : getLineHeight px true false false = 3 / 2 * px := by
        show px * (3 / 2) = 3 / 2 * px
        ring
      rw [hgl]
    · rw [if_neg hhd, if_neg hhd]
      simp only [List.map_replicate, one_mul]
      have hgl : getLineHeight px false false false = px := rfl
      rw [hgl]
      exact foldl_placeUnit_proj avail px (wrapText l cap) s

theorem cfold_append (avail : ℚ) (A B : List ℚ) (st : ℕ × ℚ) :
    cfold avail (A ++ B) st = cfold avail B (cfold avail A st) := by
  rw [cfold, cfold, cfold, List.foldl_append]

theorem processBlocks_proj (px avail : ℚ) (cap : Option ℤ) :
    ∀ (ls : List Line), (∀ l ∈ ls, isTableLine l = false) → ∀ s : PState,
      cproj (processBlocks px avail cap (toBlocks ls) s) =
        cfold avail ((docUnits cap ls).map (fun c => c * px)) (cproj s) := by
  intro ls
  induction ls with
  | nil =>
      intro _ s
      rfl
  | cons l ls ih =>
      intro h s
      have htail : ∀ x ∈ ls, isTableLine x = false :=
        fun x hx => h x (List.mem_cons_of_mem l hx)
      rw [toBlocks_of_no_tables h, List.map_cons]
      rw [docUnits, List.flatMap_cons, List.map_append, cfold_append]
      rw [← line_proj px avail cap l s]
      show cproj (processBlocks px avail cap
        (ls.map (fun l => if isHrLine l then Block.mk BKind.hr [l]
          else Block.mk BKind.text [l]))
        (procBlock px avail cap s
          (if isHrLine l then Block.mk BKind.hr [l]
            else Block.mk BKind.text [l]))) = _
      rw [← toBlocks_of_no_tables htail]
      exact ih htail (procBlock px avail cap s
        (if isHrLine l then Block.mk BKind.hr [l] else Block.mk BKind.text [l]))

theorem paginatePagesH_length_noTable (text : List Char) (f l : ℚ)
    (hnt : ∀ ln ∈ splitOnChar '\n' text, isTableLine ln = false) :
    (paginatePagesH text f l).length =
      (cfold AVAILABLE_HEIGHT
        ((docUnits (charsPerLine f) (splitOnChar '\n' text)).map
          (fun c => c * (f * l))) (0, 0)).1 + 1 := by
  obtain ⟨q, qs, hqs⟩ := splitOnChar_exists_cons '\n' text
  have hblocks : toBlocks (splitOnChar '\n' text) ≠ [] := by
    rw [hqs]
    exact toBlocks_ne_nil
  have hcur := @processBlocks_cur_ne_nil (f * l) (charsPerLine f)
    (toBlocks (splitOnChar '\n' text)) hblocks
    (fun b hb => toBlocks_content_ne_nil b hb) ⟨[], [], 0⟩
  rw [paginatePagesH]
  rw [sealFinal, if_pos (List.length_pos.mpr hcur)]
  rw [List.length_append, List.length_singleton]
  have hproj := processBlocks_proj (f * l) AVAILABLE_HEIGHT (charsPerLine f)
    (splitOnChar '\n' text) hnt ⟨[], [], 0⟩
  have hfst := congrArg Prod.fst hproj
  simp only [cproj, List.length_nil] at hfst
  rw [hfst]

/-! ## The claims -/

/-- Claim C4 (confirmed).  Non-empty output on the empty document:
`paginateText("", f, l)` returns exactly one page holding the empty string
(the source's `if (!text) return ['']`), and in general the returned page
sequence always has length at least 1 (the final guard
`pages.length > 0 ? pages : ['']`). -/
theorem c4_empty_document_nonempty_output :
    (∀ f l : ℚ, paginateText [] f l = [[]]) ∧
      ∀ (text : List Char) (f l : ℚ), 1 ≤ (paginateText text f l).length :=
  ⟨fun _ _ => rfl, paginateText_length_pos⟩

/-- Claim C9 (confirmed).  Totality under invalid parameters: the embedding
of `paginateText` is a total function for every font size and line height,
zero and negative values included — every loop of the source is modelled by
a terminating recursion accepted as such by Lean, and the output is always a
page sequence of length at least 1.  The `charsPerLine` division at font
size 0 is the JS `702 / 0 = Infinity`, modelled as the `none` capacity
(against which every length comparison succeeds), so no division by zero
occurs; the concrete evaluations at font sizes `0` and `-5` show the
degenerate parameters flowing through the whole algorithm. -/
theorem c9_total_under_invalid_parameters :
    (∀ (text : List Char) (f l : ℚ), 1 ≤ (paginateText text f l).length) ∧
      charsPerLine 0 = none ∧
      paginateText ("ab".toList) 0 (3 / 2) = ["ab".toList] ∧
      paginateText ("ab".toList) (-5) (3 / 2) = ["ab".toList] :=
  ⟨paginateText_length_pos, by decide, by decide, by decide⟩

/-- Claim C5 counterexample.  The spec's horizontal-rule pattern accepts
three *or more* repeated marker characters, but the source tests
`/^---$/`, `/^___$/`, `/^\*\*\*$/` — exactly three.  The line `----` (four
dashes) matches the spec's pattern yet is classified as a text block, not a
horizontal-rule block. -/
theorem c5_counterexample :
    specIsHrLine ("----".toList) = true ∧
      toBlocks ["----".toList] = [Block.mk BKind.text ["----".toList]] :=
  ⟨by decide, by decide⟩

/-- Claim C5 (corrected).  Amended horizontal-rule classification: during
block segmentation, a non-table line is classified as a one-line
horizontal-rule block exactly when its trimmed form is exactly `---`,
`___`, or `***` (three characters, not three-or-more); every other
non-table line is a one-line text block. -/
theorem c5_amended_hr_classification :
    (∀ ls : List Line, (∀ l ∈ ls, isTableLine l = false) →
      toBlocks ls = ls.map (fun l =>
        if isHrLine l then Block.mk BKind.hr [l] else Block.mk BKind.text [l])) ∧
      ∀ l : Line, isHrLine l = true ↔
        (trim l = ['-', '-', '-'] ∨ trim l = ['_', '_', '_'] ∨
          trim l = ['*', '*', '*']) := by
  refine ⟨fun ls h => toBlocks_of_no_tables h, ?_⟩
  intro l
  simp [isHrLine, or_assoc]

/-- Witness for the amended C5 theorem at a concrete input. -/
theorem c5_amended_witness :
    (∀ l ∈ [("----".toList), ("---".toList), ("a".toList)],
      isTableLine l = false) ∧
      toBlocks [("----".toList), ("---".toList), ("a".toList)] =
        [("----".toList), ("---".toList), ("a".toList)].map (fun l =>
          if isHrLine l then Block.mk BKind.hr [l] else Block.mk BKind.text [l]) :=
  ⟨by decide, c5_amended_hr_classification.1 _ (by decide)⟩

/-- Claim C8 (confirmed).  Word atomicity in wrapping: flattening the words
of the visual lines produced by `wrapText` recovers exactly the words of
the input line (no word is ever cut apart, dropped, duplicated, or
reordered), and any visual line containing a word longer than `maxChars`
is that word alone — so an oversized word occupies exactly one visual
line, whole, which may exceed the nominal width. -/
theorem c8_wrap_word_atomicity :
    ∀ (str : Line) (maxChars : Option ℤ),
      ((wrapText str maxChars).map (splitOnChar ' ')).flatten
          = splitOnChar ' ' str ∧
        ∀ line ∈ wrapText str maxChars, ∀ w ∈ splitOnChar ' ' line,
          leCap w.length maxChars = false → line = w := by
  intro str m
  refine ⟨wrapText_flatMap str m, ?_⟩
  intro line hl w hw hover
  rcases wrapText_chunks str m line hl with hch | hch
  · rw [splitOnChar_of_not_mem hch] at hw
    exact (List.mem_singleton.mp hw).symm
  · exfalso
    have hlen := length_le_of_mem_splitOnChar ' ' line w hw
    have hcap := leCap_mono hlen hch
    rw [hover] at hcap
    exact Bool.false_ne_true hcap

/-- Witness for C8 at a concrete input: wrapping `aaaa bb` at width 3
keeps the oversized word `aaaa` whole on its own visual line. -/
theorem c8_witness :
    ((wrapText ("aaaa bb".toList) (some 3)).map (splitOnChar ' ')).flatten
        = splitOnChar ' ' ("aaaa bb".toList) ∧
      ("aaaa".toList ∈ wrapText ("aaaa bb".toList) (some 3)) ∧
      leCap ("aaaa".toList).length (some 3) = false ∧
      ("aaaa".toList ∈ splitOnChar ' ' ("aaaa".toList)) ∧
      "aaaa".toList = "aaaa".toList :=
  ⟨(c8_wrap_word_atomicity ("aaaa bb".toList) (some 3)).1, by decide, by decide,
    by decide,
    (c8_wrap_word_atomicity ("aaaa bb".toList) (some 3)).2 _ (by decide) _
      (by decide) (by decide)⟩

/-- Claim C10 (confirmed).  Implicit empty pages: whenever the current page
has no lines (so `currentHeightUsed = 0`) and the next atomic unit's height
exceeds the whole available budget, the seal-if-overflow step pushes the
empty page (the empty line list of height 0, i.e. the string `''`) before
the oversized unit is placed — both in the shared `placeUnit` pattern
(horizontal rules, headings, wrapped text lines) and at the first row of a
split table; concretely, `paginateText "a" 2000 1` returns an empty first
page followed by the page `"a"`. -/
theorem c10_empty_page_before_oversized_unit :
    (∀ (pages : List (List (Src × Line) × ℚ)) (avail h : ℚ) (t : Src × Line),
      avail < h →
      placeUnit avail h t ⟨pages, [], 0⟩ = ⟨pages ++ [([], 0)], [t], h⟩) ∧
      (∀ (pages : List (List (Src × Line) × ℚ)) (px avail : ℚ)
        (headers : List Line) (row : Line) (rest : List Line), avail < px →
        tableRowsLoop px avail headers (row :: rest) 0 ⟨pages, [], 0⟩ =
          tableRowsLoop px avail headers rest 1
            ⟨pages ++ [([], 0)], [(Src.orig, row)], px⟩) ∧
      paginateText ("a".toList) 2000 1 = [[], "a".toList] := by
  refine ⟨?_, ?_, by decide⟩
  · intro pages avail h t hh
    have hc : avail < (0 : ℚ) + h := by rwa [zero_add]
    simp [placeUnit, hc, hh, pushPage]
  · intro pages px avail headers row rest hpx
    have hc : avail < (0 : ℚ) + px := by rwa [zero_add]
    show tableRowsLoop px avail headers rest 1 _ =
      tableRowsLoop px avail headers rest 1 _
    congr 1
    rw [if_pos hc, if_neg (by omega : ¬(2 ≤ 0 ∧ headers.length = 2))]
    simp [pushPage]

/-- Witness for C10's general parts at concrete inputs. -/
theorem c10_witness :
    ((1027 : ℚ) < 2000 ∧
      placeUnit 1027 2000 (Src.orig, "a".toList) ⟨[], [], 0⟩ =
        ⟨[([], 0)], [(Src.orig, "a".toList)], 2000⟩) ∧
      ((1027 : ℚ) < 2000 ∧
        tableRowsLoop 2000 1027 ["h".toList] ["r".toList] 0 ⟨[], [], 0⟩ =
          tableRowsLoop 2000 1027 ["h".toList] [] 1
            ⟨[([], 0)], [(Src.orig, "r".toList)], 2000⟩) :=
  ⟨⟨by norm_num, c10_empty_page_before_oversized_unit.1 [] 1027 2000 _ (by norm_num)⟩,
    ⟨by norm_num,
      c10_empty_page_before_oversized_unit.2.1 [] 2000 1027 _ _ _ (by norm_num)⟩⟩

/-- Claim C1 counterexample.  Soft-wrapping splits an input line across
several output lines: at font size 300 (5 characters per line) the one-line
document `aaaa bbbb` is emitted as the two lines `aaaa` and `bbbb`.  Any
"exclusion of re-emitted header lines and spacer lines" yields a sublist of
the output lines, and the original line list is not a sublist of the output
lines, so no such exclusion can reconstruct the document — lines are
altered, falsifying the claim as stated. -/
theorem c1_counterexample :
    splitOnChar '\n' ("aaaa bbbb".toList) = [("aaaa bbbb".toList)] ∧
      ((paginatePagesH ("aaaa bbbb".toList) 300 1).map
          (fun pg => pg.1.map (fun tl => tl.2))).flatten
        = ["aaaa".toList, "bbbb".toList] ∧
      ¬ List.Sublist [("aaaa bbbb".toList)] ["aaaa".toList, "bbbb".toList] :=
  ⟨by decide, by decide, by decide⟩

/-- Claim C1 (corrected).  Amended content preservation: for documents all
of whose lines fit within the estimated character capacity (so no
soft-wrapping occurs), the output lines of `paginateText`, after excluding
the re-emitted table header lines and the inserted blank spacer lines
(identified here by their ghost provenance tags), reconstruct the
document's original line sequence exactly — no input line is dropped,
duplicated, altered, or reordered. -/
theorem c1_amended_content_preservation :
    ∀ (text : List Char) (f l : ℚ),
      (∀ line ∈ splitOnChar '\n' text,
        leCap line.length (charsPerLine f) = true) →
      origLines (paginatePagesH text f l) = splitOnChar '\n' text := by
  intro text f l h
  rw [origLines_paginatePagesH, flatMap_blockEmits_eq h]

/-- Witness for the amended C1 theorem on a document holding a heading, a
table, plain text and a horizontal rule. -/
theorem c1_amended_witness :
    (∀ line ∈ splitOnChar '\n' ("# t\n| a |\n| - |\nx\n---".toList),
      leCap line.length (charsPerLine 20) = true) ∧
      origLines (paginatePagesH ("# t\n| a |\n| - |\nx\n---".toList) 20 1) =
        splitOnChar '\n' ("# t\n| a |\n| - |\nx\n---".toList) :=
  ⟨by decide, c1_amended_content_preservation _ 20 1 (by decide)⟩

/-- Claim C2 counterexample.  The blank spacer line inserted before a table
is charged *after* the fit check, so a page can exceed the available
height budget while consisting of many ordinary units: at font size 100
(line height 1, pxPerLine 100) nine one-line paragraphs (900px) followed
by a one-row table (100px) pass the fit check `900 + 100 ≤ 1027`, and the
inserted spacer brings the single produced page to accumulated height
1100 > 1027 with 11 lines, each of whose own unit height is 100 ≤ 1027 —
neither within budget nor a single oversized atomic unit. -/
theorem c2_counterexample :
    paginatePagesH ("a\nb\nc\nd\ne\nf\ng\nh\ni\n| x |".toList) 100 1 =
      [([(Src.orig, "a".toList), (Src.orig, "b".toList), (Src.orig, "c".toList),
         (Src.orig, "d".toList), (Src.orig, "e".toList), (Src.orig, "f".toList),
         (Src.orig, "g".toList), (Src.orig, "h".toList), (Src.orig, "i".toList),
         (Src.spacer, []), (Src.orig, "| x |".toList)], 1100)] ∧
      AVAILABLE_HEIGHT < 1100 ∧
      (∀ tl ∈ [(Src.orig, "a".toList), (Src.orig, "b".toList),
         (Src.orig, "c".toList), (Src.orig, "d".toList), (Src.orig, "e".toList),
         (Src.orig, "f".toList), (Src.orig, "g".toList), (Src.orig, "h".toList),
         (Src.orig, "i".toList), ((Src.spacer, []) : Src × Line),
         (Src.orig, "| x |".toList)],
        getLineHeight (100 * 1) (isHeadingLine tl.2) (isTableLine tl.2)
            (isHrLine tl.2) ≤ AVAILABLE_HEIGHT) :=
  ⟨by decide, by decide, by decide⟩

/-- Claim C2 (corrected).  Amended budget respect: for positive parameters,
every page produced by the paginator either has accumulated estimated
height at most the available budget plus one `pxPerLine` of slack (the
slack coming from a blank spacer line inserted after the table fit check),
or is one of the short forced shapes of at most 3 lines (a single atomic
unit whose own height exceeds the budget, possibly preceded by the two
re-emitted table header lines or followed by an inserted spacer). -/
theorem c2_amended_budget_respect :
    ∀ (text : List Char) (f l : ℚ), 0 < f → 0 < l →
      ∀ pg ∈ paginatePagesH text f l,
        pg.2 ≤ AVAILABLE_HEIGHT + f * l ∨ pg.1.length ≤ 3 :=
  fun text f l hf hl pg hpg => paginatePagesH_good text f l hf hl pg hpg

/-- Witness for the amended C2 theorem at the counterexample input. -/
theorem c2_amended_witness :
    (0 : ℚ) < 100 ∧ (0 : ℚ) < 1 ∧
      (([(Src.orig, "a".toList), (Src.orig, "b".toList), (Src.orig, "c".toList),
         (Src.orig, "d".toList), (Src.orig, "e".toList), (Src.orig, "f".toList),
         (Src.orig, "g".toList), (Src.orig, "h".toList), (Src.orig, "i".toList),
         (Src.spacer, []), (Src.orig, "| x |".toList)], (1100 : ℚ)) ∈
        paginatePagesH ("a\nb\nc\nd\ne\nf\ng\nh\ni\n| x |".toList) 100 1) ∧
      ((1100 : ℚ) ≤ AVAILABLE_HEIGHT + 100 * 1 ∨
        ([(Src.orig, "a".toList), (Src.orig, "b".toList), (Src.orig, "c".toList),
          (Src.orig, "d".toList), (Src.orig, "e".toList), (Src.orig, "f".toList),
          (Src.orig, "g".toList), (Src.orig, "h".toList), (Src.orig, "i".toList),
          ((Src.spacer, []) : Src × Line),
          (Src.orig, "| x |".toList)].length ≤ 3)) :=
  ⟨by norm_num, by norm_num, by decide,
    c2_amended_budget_respect ("a\nb\nc\nd\ne\nf\ng\nh\ni\n| x |".toList) 100 1
      (by norm_num) (by norm_num)
      (([(Src.orig, "a".toList), (Src.orig, "b".toList), (Src.orig, "c".toList),
          (Src.orig, "d".toList), (Src.orig, "e".toList), (Src.orig, "f".toList),
          (Src.orig, "g".toList), (Src.orig, "h".toList), (Src.orig, "i".toList),
          (Src.spacer, []), (Src.orig, "| x |".toList)], (1100 : ℚ)))
      (by decide)⟩

/-- Claim C3 counterexample.  When the page boundary is crossed while the
*separator row* (header row index 1) is being placed, the source does not
repeat the headers (`isHeaderRow` is true), so the continuation page starts
with the separator row alone and then carries data rows without the label
row: with eight one-line paragraphs before a six-row table at font size
100, page 2 is `| -- | / | r1 | / ... / | r4 |` — it contains data rows
but does not begin with the two original header lines, falsifying the
claim as stated. -/
theorem c3_counterexample :
    (paginatePagesH
        ("a\nb\nc\nd\ne\nf\ng\nh\n| h1 |\n| -- |\n| r1 |\n| r2 |\n| r3 |\n| r4 |".toList)
        100 1).map (fun pg => pg.1.map (fun tl => tl.2)) =
      [["a".toList, "b".toList, "c".toList, "d".toList, "e".toList, "f".toList,
        "g".toList, "h".toList, [], "| h1 |".toList],
       ["| -- |".toList, "| r1 |".toList, "| r2 |".toList, "| r3 |".toList,
        "| r4 |".toList]] ∧
      ¬ (["| -- |".toList, "| r1 |".toList, "| r2 |".toList, "| r3 |".toList,
          "| r4 |".toList].take 2 = ["| h1 |".toList, "| -- |".toList]) :=
  ⟨by decide, by decide⟩

/-- Claim C3 (corrected).  Amended table header continuity: every page that
carries re-emitted header lines begins with exactly the two original
header lines (the first two rows of the table block being continued,
verbatim) immediately followed by a data row (a row beyond the first two)
of that same table; and headers *are* re-emitted whenever a page boundary
is crossed before a data row.  The unamended claim fails only in the case
the boundary is crossed while one of the two header rows themselves is
being placed (the counterexample), in which case nothing is repeated. -/
theorem c3_amended_header_continuity :
    (∀ (text : List Char) (f l : ℚ), ∀ pg ∈ paginatePagesH text f l,
      ∀ tl ∈ pg.1, tl.1 = Src.header →
        ∃ h1 h2 rest,
          Block.mk BKind.table (h1 :: h2 :: rest) ∈
              toBlocks (splitOnChar '\n' text) ∧
            ∃ r ∈ rest, ∃ tail,
              pg.1 = (Src.header, h1) :: (Src.header, h2) :: (Src.orig, r) :: tail) ∧
      ∀ (px avail : ℚ) (h1 h2 row : Line) (rest : List Line) (r : ℕ) (s : PState),
        avail < s.used + px → 2 ≤ r →
        tableRowsLoop px avail [h1, h2] (row :: rest) r s =
          tableRowsLoop px avail [h1, h2] rest (r + 1)
            ⟨s.pages ++ [(s.cur, s.used)],
              [(Src.header, h1), (Src.header, h2), (Src.orig, row)],
              2 * px + px⟩ := by
  constructor
  · intro text f l pg hpg tl htl hhdr
    have hok := paginatePagesH_hdrOk text f l pg hpg
    rcases hok with hok | ⟨h1, h2, rest, r, tail, hmem, hr, hshape, _⟩
    · exact absurd hhdr (hok tl htl)
    · exact ⟨h1, h2, rest, hmem, r, hr, tail, hshape⟩
  · intro px avail h1 h2 row rest r s hc hr
    show tableRowsLoop px avail [h1, h2] rest (r + 1) _ =
      tableRowsLoop px avail [h1, h2] rest (r + 1) _
    congr 1
    rw [if_pos hc, if_pos ⟨hr, rfl⟩]
    simp [pushPage]

/-- Witness for the amended C3 theorem: seven one-line paragraphs followed
by a six-row table at font size 100 force a split before data row index 2,
and the continuation page begins with the two re-emitted header lines. -/
theorem c3_amended_witness :
    (([(Src.header, "| h1 |".toList), (Src.header, "| -- |".toList),
        (Src.orig, "| r2 |".toList), (Src.orig, "| r3 |".toList),
        (Src.orig, "| r4 |".toList), (Src.orig, "| r5 |".toList)], (600 : ℚ)) ∈
      paginatePagesH
        ("a\nb\nc\nd\ne\nf\ng\n| h1 |\n| -- |\n| r2 |\n| r3 |\n| r4 |\n| r5 |".toList)
        100 1) ∧
      ((Src.header, "| h1 |".toList) ∈
        [((Src.header, "| h1 |".toList) : Src × Line),
          (Src.header, "| -- |".toList), (Src.orig, "| r2 |".toList),
          (Src.orig, "| r3 |".toList), (Src.orig, "| r4 |".toList),
          (Src.orig, "| r5 |".toList)]) ∧
      (∃ h1 h2 rest,
        Block.mk BKind.table (h1 :: h2 :: rest) ∈
            toBlocks (splitOnChar '\n'
              ("a\nb\nc\nd\ne\nf\ng\n| h1 |\n| -- |\n| r2 |\n| r3 |\n| r4 |\n| r5 |".toList)) ∧
          ∃ r ∈ rest, ∃ tail,
            [(Src.header, "| h1 |".toList), (Src.header, "| -- |".toList),
              (Src.orig, "| r2 |".toList), (Src.orig, "| r3 |".toList),
              (Src.orig, "| r4 |".toList), (Src.orig, "| r5 |".toList)] =
              (Src.header, h1) :: (Src.header, h2) :: (Src.orig, r) :: tail) :=
  ⟨by decide, by decide,
    c3_amended_header_continuity.1
      ("a\nb\nc\nd\ne\nf\ng\n| h1 |\n| -- |\n| r2 |\n| r3 |\n| r4 |\n| r5 |".toList)
      100 1
      (([(Src.header, "| h1 |".toList), (Src.header, "| -- |".toList),
          (Src.orig, "| r2 |".toList), (Src.orig, "| r3 |".toList),
          (Src.orig, "| r4 |".toList), (Src.orig, "| r5 |".toList)], (600 : ℚ)))
      (by decide) ((Src.header, "| h1 |".toList)) (by decide) rfl⟩

/-- Claim C7 counterexample.  Page count is not monotone in the font size:
on the document `---` followed by four one-character table rows, font size
293 produces 3 pages while the larger font size 294 produces only 2.  (At
293 the page boundary inside the table falls before row index 2, so the
two header rows are not re-emitted and the rows pack differently than at
294, where the boundary falls on a data row and headers are re-emitted.) -/
theorem c7_counterexample :
    (0 : ℚ) < 293 ∧ (293 : ℚ) ≤ 294 ∧ (0 : ℚ) < 1 ∧
      (paginateText ("---\n|\n|\n|\n|".toList) 293 1).length = 3 ∧
      (paginateText ("---\n|\n|\n|\n|".toList) 294 1).length = 2 :=
  ⟨by norm_num, by norm_num, by norm_num, by decide, by decide⟩

/-- Claim C7 (corrected).  Amended monotone page count: for every document
containing no table lines — headings, horizontal rules and soft-wrapped
plain text all allowed — and positive parameters, increasing the font size
never decreases the number of produced pages.  Each non-table line
contributes unit heights that are fixed multiples of `pxPerLine` (half for
a rule, one and a half for a heading, one per wrapped visual line), the
wrapped-line count per line is antitone in the character capacity and
hence monotone in the font size, and the seal-if-overflow page count is
monotone both under scaling all units up and under inserting extra units.
Only the table branch breaks monotonicity: header re-emission depends on
where the moving page boundary falls (the counterexample). -/
theorem c7_amended_monotone_page_count :
    ∀ (text : List Char) (f1 f2 l : ℚ), 0 < f1 → f1 ≤ f2 → 0 < l →
      (∀ ln ∈ splitOnChar '\n' text, isTableLine ln = false) →
      (paginateText text f1 l).length ≤ (paginateText text f2 l).length := by
  intro text f1 f2 l hf1 hle hl hnt
  by_cases htext : text = []
  · subst htext
    simp [paginateText]
  · have hf2 : 0 < f2 := lt_of_lt_of_le hf1 hle
    have hp1 : 0 < f1 * l := mul_pos hf1 hl
    have hp2 : 0 < f2 * l := mul_pos hf2 hl
    have hpp : f1 * l ≤ f2 * l :=
      mul_le_mul_of_nonneg_right hle (le_of_lt hl)
    rw [paginateText_eq_map f1 l htext, paginateText_eq_map f2 l htext,
      List.length_map, List.length_map,
      paginatePagesH_length_noTable text f1 l hnt,
      paginatePagesH_length_noTable text f2 l hnt]
    have hmono : ∀ n, leCap n (charsPerLine f2) = true →
        leCap n (charsPerLine f1) = true :=
      fun n hn => leCap_charsPerLine_anti hf1 hle hn
    have hA := cfold_scale hp1 hpp (le_of_lt AVAILABLE_HEIGHT_pos)
      (docUnits (charsPerLine f1) (splitOnChar '\n' text))
      (docUnits_nonneg (charsPerLine f1) (splitOnChar '\n' text))
      (0, 0) (0, 0) (le_refl 0) (Or.inr ⟨rfl, by simp⟩)
    have hsub := (docUnits_sublist hmono (splitOnChar '\n' text)).map
      (fun c => c * (f2 * l))
    have hnn2 : ∀ x ∈ (docUnits (charsPerLine f2)
        (splitOnChar '\n' text)).map (fun c => c * (f2 * l)), 0 ≤ x := by
      intro x hx
      obtain ⟨c, hc, hcx⟩ := List.mem_map.mp hx
      rw [← hcx]
      exact mul_nonneg
        (docUnits_nonneg (charsPerLine f2) (splitOnChar '\n' text) c hc)
        (le_of_lt hp2)
    have hB := @cfold_sublist AVAILABLE_HEIGHT _ _ hsub hnn2 (0, 0) (0, 0)
      (le_refl 0) (Or.inr ⟨rfl, le_refl 0⟩)
    have h1 := sdom_fst_le hA
    have h2 := cdom_fst_le hB
    omega

/-- Witness for the amended C7 theorem on a table-free document holding a
heading, a horizontal rule and a soft-wrapped paragraph, at font sizes 100
and 200. -/
theorem c7_amended_witness :
    (0 : ℚ) < 100 ∧ (100 : ℚ) ≤ 200 ∧ (0 : ℚ) < 1 ∧
      (∀ ln ∈ splitOnChar '\n' ("# t\n---\naaaa bbbb".toList),
        isTableLine ln = false) ∧
      (paginateText ("# t\n---\naaaa bbbb".toList) 100 1).length ≤
        (paginateText ("# t\n---\naaaa bbbb".toList) 200 1).length :=
  ⟨by norm_num, by norm_num, by norm_num, by decide,
    c7_amended_monotone_page_count ("# t\n---\naaaa bbbb".toList) 100 200 1
      (by norm_num) (by norm_num) (by norm_num) (by decide)⟩

/-- Claim C6 counterexample.  Re-pagination of a single-page output is not
idempotent: on `a` followed by the one-row table `| x |` at font size 100
the single produced page is `a\n\n| x |` (a blank spacer line is inserted
before the table).  Re-running the paginator on that page inserts a fresh
spacer before the same table, yielding the different single page
`a\n\n\n| x |` — the blank line accumulates on every re-run (drift). -/
theorem c6_counterexample :
    paginateText ("a\n| x |".toList) 100 1 = [("a\n\n| x |".toList)] ∧
      paginateText ("a\n\n| x |".toList) 100 1 = [("a\n\n\n| x |".toList)] ∧
      ¬ ([("a\n\n\n| x |".toList)] = [("a\n\n| x |".toList)]) :=
  ⟨by decide, by decide, by decide⟩

/-- Claim C6 (corrected).  Amended idempotence at steady state: if a run of
the paginator returns exactly one page and every line of that page is a
plain text line (no table rows — hence no spacer insertion — no horizontal
rules, no headings) fitting within the character capacity, then re-running
the paginator on the page's joined text returns exactly that same one page
unchanged.  The unamended claim fails when the single page contains a
table: the blank spacer line inserted before a table is not recognised on
re-input, and a fresh spacer accumulates on every re-run (the
counterexample). -/
theorem c6_amended_idempotence :
    ∀ (text page : List Char) (f l : ℚ),
      paginateText text f l = [page] →
      (∀ ln ∈ splitOnChar '\n' page,
        plainLine ln = true ∧ leCap ln.length (charsPerLine f) = true) →
      paginateText page f l = [page] := by
  intro text page f l h1 h2
  by_cases hpage : page = []
  · subst hpage
    simp [paginateText]
  by_cases htext : text = []
  · subst htext
    have hpg : ([] : List Char) = page := by simpa [paginateText] using h1
    exact absurd hpg.symm hpage
  rw [paginateText_eq_map f l htext] at h1
  cases hps : paginatePagesH text f l with
  | nil =>
      rw [hps] at h1
      exact absurd h1 (by simp)
  | cons pg rest =>
      rw [hps] at h1
      cases rest with
      | cons a b =>
          exfalso
          simp at h1
      | nil =>
          have hpt : pageText pg = page := by simpa using h1
          have hlinesne := splitOnChar_ne_nil '\n' text
          have hpl1ne : pg.1.map (fun tl => tl.2) ≠ [] := by
            intro hc
            apply hpage
            rw [← hpt]
            simp only [pageText, joinLines]
            rw [hc]
            rfl
          have hDplain : ∀ ln ∈ splitOnChar '\n' text, plainLine ln = true := by
            intro ln hln
            by_cases hp : plainLine ln = true
            · exact hp
            · exfalso
              have hnp : plainLine ln = false := by simpa using hp
              have hmem := mem_emits_of_not_plain (charsPerLine f) hln hnp
              rw [← origLines_paginatePagesH text f l, hps] at hmem
              have hmem2 : ln ∈ origOfPage pg.1 := by
                simpa [origLines] using hmem
              obtain ⟨tl, htl, _, htl2⟩ := mem_origOfPage hmem2
              have hmem3 : ln ∈ splitOnChar '\n' page := by
                rw [← hpt]
                simp only [pageText, joinLines]
                rw [splitOnChar_joinWith '\n' _ hpl1ne]
                refine List.mem_flatMap.mpr ⟨tl.2, List.mem_map_of_mem _ htl, ?_⟩
                rw [htl2,
                  splitOnChar_of_not_mem (not_mem_splitOnChar '\n' text ln hln)]
                exact List.mem_singleton.mpr rfl
              have hpl := (h2 ln hmem3).1
              rw [hpl] at hnp
              exact Bool.noConfusion hnp
          have hth : ∀ ln ∈ splitOnChar '\n' text,
              isTableLine ln = false ∧ isHrLine ln = false :=
            fun ln hln => ⟨(plainLine_iff.mp (hDplain ln hln)).1,
              (plainLine_iff.mp (hDplain ln hln)).2.1⟩
          have hhd : ∀ ln ∈ splitOnChar '\n' text, isHeadingLine ln = false :=
            fun ln hln => (plainLine_iff.mp (hDplain ln hln)).2.2
          have hplainred := paginatePagesH_plain f l hth hhd
          have hF0ne : ((splitOnChar '\n' text).flatMap
              (fun ln => wrapText ln (charsPerLine f))) ≠ [] :=
            flatMap_wrapText_ne_nil hlinesne _
          have hseal : sealFinal (packFold (f * l) AVAILABLE_HEIGHT
              ((splitOnChar '\n' text).flatMap
                (fun ln => wrapText ln (charsPerLine f))) ⟨[], [], 0⟩) = [pg] := by
            rw [← hplainred]
            exact hps
          have hcur : (packFold (f * l) AVAILABLE_HEIGHT
              ((splitOnChar '\n' text).flatMap
                (fun ln => wrapText ln (charsPerLine f))) ⟨[], [], 0⟩).cur ≠ [] :=
            packFold_cur_ne_nil _ _ _ hF0ne _
          obtain ⟨hpgs0, hpgeq⟩ := sealFinal_singleton hcur hseal
          have hnoseal := @packFold_no_seal (f * l) AVAILABLE_HEIGHT
            ((splitOnChar '\n' text).flatMap
              (fun ln => wrapText ln (charsPerLine f))) ⟨[], [], 0⟩ hpgs0
          have hpg1 : pg.1 = ((splitOnChar '\n' text).flatMap
              (fun ln => wrapText ln (charsPerLine f))).map
                (fun v => (Src.orig, v)) := by
            rw [hpgeq, hnoseal]
            simp
          have hmapline : pg.1.map (fun tl => tl.2) =
              (splitOnChar '\n' text).flatMap
                (fun ln => wrapText ln (charsPerLine f)) := by
            rw [hpg1, List.map_map]
            simp
          have hnonl : ∀ v ∈ (splitOnChar '\n' text).flatMap
              (fun ln => wrapText ln (charsPerLine f)), '\n' ∉ v := by
            intro v hv
            obtain ⟨ln, hln, hvln⟩ := List.mem_flatMap.mp hv
            have hlnn : ∀ c ∈ ln, c ≠ '\n' := by
              intro c hc he
              exact not_mem_splitOnChar '\n' text ln hln (he ▸ hc)
            intro hmem
            exact @wrapText_chars ln (charsPerLine f) (fun c => c ≠ '\n')
              (by decide) hlnn v hvln '\n' hmem rfl
          have hsplitpage : splitOnChar '\n' page =
              (splitOnChar '\n' text).flatMap
                (fun ln => wrapText ln (charsPerLine f)) := by
            rw [← hpt]
            simp only [pageText, joinLines]
            rw [hmapline, splitOnChar_joinWith '\n' _ hF0ne,
              flatMap_splitOnChar_eq_self hnonl]
          have hth2 : ∀ ln ∈ splitOnChar '\n' page,
              isTableLine ln = false ∧ isHrLine ln = false :=
            fun ln hln => ⟨(plainLine_iff.mp ((h2 ln hln).1)).1,
              (plainLine_iff.mp ((h2 ln hln).1)).2.1⟩
          have hhd2 : ∀ ln ∈ splitOnChar '\n' page, isHeadingLine ln = false :=
            fun ln hln => (plainLine_iff.mp ((h2 ln hln).1)).2.2
          have hcapF0 : ∀ ln ∈ (splitOnChar '\n' text).flatMap
              (fun ln => wrapText ln (charsPerLine f)),
              leCap ln.length (charsPerLine f) = true := by
            rw [← hsplitpage]
            exact fun ln hln => (h2 ln hln).2
          rw [paginateText_eq_map f l hpage, paginatePagesH_plain f l hth2 hhd2,
            hsplitpage, flatMap_wrapText_id hcapF0, hseal]
          simp [hpt]

/-- Witness for the amended C6 theorem: the two-line plain document `a\nb`
at font size 100 paginates to the single page `a\nb`, whose lines are plain
and within capacity, and re-pagination returns the same page. -/
theorem c6_amended_witness :
    paginateText ("a\nb".toList) 100 1 = [("a\nb".toList)] ∧
      (∀ ln ∈ splitOnChar '\n' ("a\nb".toList),
        plainLine ln = true ∧ leCap ln.length (charsPerLine 100) = true) ∧
      paginateText ("a\nb".toList) 100 1 = [("a\nb".toList)] :=
  ⟨by decide, by decide,
    c6_amended_idempotence ("a\nb".toList) ("a\nb".toList) 100 1
      (by decide) (by decide)⟩

end Scribe
